import Mathlib

/-!
# CppOptimizer: a line-oriented dead-code eliminator

A shallow embedding of the class `CppOptimizer` of `mainwindow.h`.

* A `std::string` is a list of characters (`Str`); the text is read one `char`
  at a time, so every list element stands for one `char`.
* A `std::set<std::string>` is a list used through membership and
  `List.insert` only; the source never iterates over its sets.
* The `std::map` `functionCalls` is an association list with the operations
  the source applies to it (`operator[]`, assignment, `push_back`).
* The five `std::regex` patterns are values of the type `Regex` below, matched
  by a backtracking matcher with the ECMAScript priorities (`std::regex`'s
  default grammar): leftmost start, alternatives left to right, greedy
  quantifiers longest first, lazy quantifiers shortest first.
* `int` arithmetic is `Int` arithmetic followed by `wrap32`.
-/

namespace CodeOptimizer

/-- The characters of a `std::string`. -/
abbrev Str := List Char

/-! ## Regular expressions -/

/-- The constructs that occur in the five patterns of the source. -/
inductive Regex where
  /-- The empty pattern. -/
  | eps : Regex
  /-- One character satisfying a predicate: a literal, a class or `.`. -/
  | cls : (Char → Bool) → Regex
  /-- Concatenation. -/
  | seq : Regex → Regex → Regex
  /-- Alternation, `a|b`. -/
  | alt : Regex → Regex → Regex
  /-- Repetition `r*` (greedy when the flag is `true`, lazy `r*?` otherwise). -/
  | star : Bool → Regex → Regex
  /-- Capture group number `n`. -/
  | group : Nat → Regex → Regex
  /-- Word boundary, `\b`. -/
  | wordBoundary : Regex
  /-- Positive lookahead, `(?=r)`. -/
  | lookahead : Regex → Regex

/-- A position in the subject: the character just before it, when there is
one, and the characters still to be read. -/
structure Pos where
  prev : Option Char
  rest : Str

/-- Capture groups: number and captured text, most recent first. -/
abbrev Caps := List (Nat × Str)

/-- The continuation of a match: what remains to be matched after a
sub-pattern has succeeded at a position. -/
abbrev Cont := Pos → Caps → Option (Pos × Caps)

/-- A matcher tries a pattern at a position and hands every way of matching
it, in priority order, to the continuation until one succeeds. -/
abbrev Matcher := Pos → Caps → Cont → Option (Pos × Caps)

/-- The class `\w` of the classic locale: letters, digits and underscore. -/
def isWordChar (c : Char) : Bool :=
  ('a'.toNat ≤ c.toNat && c.toNat ≤ 'z'.toNat) ||
  ('A'.toNat ≤ c.toNat && c.toNat ≤ 'Z'.toNat) ||
  ('0'.toNat ≤ c.toNat && c.toNat ≤ '9'.toNat) || c.toNat == '_'.toNat

/-- The function `isspace` of the C locale, which is also the class `\s`:
space, `\t`, `\n`, `\v`, `\f`, `\r`. -/
def isSpace (c : Char) : Bool :=
  c.toNat == 32 || (9 ≤ c.toNat && c.toNat ≤ 13)

/-- Whether a word character stands at the head of the text. -/
def startsWithWord : Str → Bool
  | [] => false
  | c :: _ => isWordChar c

/-- Whether the character before the position is a word character. -/
def prevIsWord (p : Pos) : Bool :=
  match p.prev with
  | none => false
  | some c => isWordChar c

/-- The loop of a quantifier `r*`: `body` matches `r`. An iteration that
consumes no character is not taken (ECMAScript's rule for empty iterations),
so at most `rest.length` iterations are possible and the counter, started at
that length, is `0` only where no further iteration could succeed. -/
def starLoop (greedy : Bool) (body : Matcher) : Nat → Matcher
  | 0 => fun p c k => k p c
  | n + 1 => fun p c k =>
    if greedy then
      match body p c (fun p' c' =>
          if p'.rest.length < p.rest.length then starLoop greedy body n p' c' k else none) with
      | some r => some r
      | none => k p c
    else
      match k p c with
      | some r => some r
      | none => body p c (fun p' c' =>
          if p'.rest.length < p.rest.length then starLoop greedy body n p' c' k else none)

/-- The backtracking matcher. -/
def matchRe : Regex → Matcher
  | .eps => fun p c k => k p c
  | .cls f => fun p c k =>
    match p.rest with
    | [] => none
    | x :: xs => if f x then k ⟨some x, xs⟩ c else none
  | .seq a b => fun p c k => matchRe a p c (fun p' c' => matchRe b p' c' k)
  | .alt a b => fun p c k =>
    match matchRe a p c k with
    | some r => some r
    | none => matchRe b p c k
  | .star g r => fun p c k => starLoop g (matchRe r) p.rest.length p c k
  | .group n r => fun p c k =>
    matchRe r p c (fun p' c' =>
      k p' ((n, p.rest.take (p.rest.length - p'.rest.length)) :: c'))
  | .wordBoundary => fun p c k =>
    if prevIsWord p != startsWithWord p.rest then k p c else none
  | .lookahead r => fun p c k =>
    match matchRe r p c (fun p' c' => some (p', c')) with
    | some (_, c') => k p c'
    | none => none

/-- A match anchored at a position: the number of characters of the first
match the backtracking finds there, and its capture groups. -/
def matchAt (r : Regex) (prev : Option Char) (s : Str) : Option (Nat × Caps) :=
  match matchRe r ⟨prev, s⟩ [] (fun p c => some (p, c)) with
  | some (p, c) => some (s.length - p.rest.length, c)
  | none => none

/-- The text of capture group `n` (empty when the group did not take part). -/
def group (c : Caps) (n : Nat) : Str :=
  match c.lookup n with
  | some s => s
  | none => []

/-- The function `std::regex_search` from a position: the start positions are
tried from left to right, and the capture groups of the first position with a
match are returned. -/
def regexSearchFrom (r : Regex) : Option Char → Str → Option Caps
  | prev, [] =>
    match matchAt r prev [] with
    | some (_, c) => some c
    | none => none
  | prev, x :: xs =>
    match matchAt r prev (x :: xs) with
    | some (_, c) => some c
    | none => regexSearchFrom r (some x) xs

/-- The function `std::regex_search(s, m, r)` on a whole string. -/
def regexSearch (r : Regex) (s : Str) : Option Caps :=
  regexSearchFrom r none s

/-- The successive matches of a `std::sregex_iterator`, as one pass over the
text: `skip` counts the characters of the current match still to be passed, and
at a position outside a match the pattern is tried; the leftmost match is thus
found first and each search resumes where the previous match ended. After an
empty match (none of the patterns of this program has one) the search resumes
one character further. -/
def regexMatchesFrom (r : Regex) : Nat → Option Char → Str → List Caps
  | _, prev, [] =>
    match matchAt r prev [] with
    | some (_, c) => [c]
    | none => []
  | skip + 1, _, x :: xs => regexMatchesFrom r skip (some x) xs
  | 0, prev, x :: xs =>
    match matchAt r prev (x :: xs) with
    | some (len, c) => c :: regexMatchesFrom r (len - 1) (some x) xs
    | none => regexMatchesFrom r 0 (some x) xs

/-- All matches of a pattern in a string, left to right. -/
def regexMatches (r : Regex) (s : Str) : List Caps :=
  regexMatchesFrom r 0 none s

/-- The function `std::regex_replace(s, r, "")` as one pass over the text, in
the manner of `regexMatchesFrom`: the characters outside the matches are
copied, those of a match are left out. -/
def regexRemoveFrom (r : Regex) : Nat → Option Char → Str → Str
  | _, _, [] => []
  | skip + 1, _, x :: xs => regexRemoveFrom r skip (some x) xs
  | 0, prev, x :: xs =>
    match matchAt r prev (x :: xs) with
    | some (len + 1, _) => regexRemoveFrom r len (some x) xs
    | _ => x :: regexRemoveFrom r 0 (some x) xs

/-- The function `std::regex_replace(s, r, "")`. -/
def regexRemove (r : Regex) (s : Str) : Str :=
  regexRemoveFrom r 0 none s

/-! ## The patterns of the source -/

/-- A literal character. -/
def lit (c : Char) : Regex := .cls (fun x => x == c)

/-- The class `[^c]`. -/
def notChar (c : Char) : Regex := .cls (fun x => x != c)

/-- The pattern `.`: any character but a line terminator. -/
def anyChar : Regex := .cls (fun x => x != '\n' && x != '\r')

/-- The class `\w`. -/
def word : Regex := .cls isWordChar

/-- The class `\s`. -/
def space : Regex := .cls isSpace

/-- The quantifier `r+`. -/
def plus (r : Regex) : Regex := .seq r (.star true r)

/-- The quantifier `r?`. -/
def opt (r : Regex) : Regex := .alt r .eps

/-- A sequence of patterns. -/
def seqs : List Regex → Regex
  | [] => .eps
  | [r] => r
  | r :: rs => .seq r (seqs rs)

/-- The pattern `\/\*.*?\*\/|\/\/[^\n]*`. -/
def commentRegex : Regex :=
  .alt (seqs [lit '/', lit '*', .star false anyChar, lit '*', lit '/'])
       (seqs [lit '/', lit '/', .star true (notChar '\n')])

/-- The sub-pattern `\w+(?:\s*::\s*\w+)*`, a possibly qualified name. -/
def qualifiedName : Regex :=
  seqs [plus word,
        .star true (seqs [.star true space, lit ':', lit ':', .star true space, plus word])]

/-- The pattern
`(?:\w+(?:\s*::\s*\w+)*\s+)+(\w+)\s*\([^)]*\)\s*(?:const)?\s*\{?`. -/
def funcDefRegex : Regex :=
  seqs [plus (seqs [qualifiedName, plus space]),
        .group 1 (plus word), .star true space,
        lit '(', .star true (notChar ')'), lit ')', .star true space,
        opt (seqs [lit 'c', lit 'o', lit 'n', lit 's', lit 't']),
        .star true space, opt (lit '{')]

/-- The pattern `\b(\w+)\s*\([^)]*\)`. -/
def funcCallRegex : Regex :=
  seqs [.wordBoundary, .group 1 (plus word), .star true space,
        lit '(', .star true (notChar ')'), lit ')']

/-- The pattern `(\w+(?:\s*::\s*\w+)*)\s+(\w+)\s*(?:=\s*[^;]+)?\s*;`. -/
def varDefRegex : Regex :=
  seqs [.group 1 qualifiedName, plus space, .group 2 (plus word), .star true space,
        opt (seqs [lit '=', .star true space, plus (notChar ';')]),
        .star true space, lit ';']

/-- The class `[a-zA-Z_]`. -/
def identStart : Regex :=
  .cls (fun c => ('a'.toNat ≤ c.toNat && c.toNat ≤ 'z'.toNat) ||
    ('A'.toNat ≤ c.toNat && c.toNat ≤ 'Z'.toNat) || c.toNat == '_'.toNat)

/-- The pattern `\b([a-zA-Z_]\w*)\b(?=\s*\()`. -/
def varUseRegex : Regex :=
  seqs [.wordBoundary, .group 1 (seqs [identStart, .star true word]), .wordBoundary,
        .lookahead (seqs [.star true space, lit '('])]

/-- The comment-stripped view of a line:
`std::regex_replace(line, commentRegex, "")`. -/
def stripComments (line : Str) : Str := regexRemove commentRegex line

/-- The name a line defines when `funcDefRegex` is found in it:
`funcMatch[1].str()`. -/
def funcDefName (cleanLine : Str) : Option Str :=
  (regexSearch funcDefRegex cleanLine).map (fun c => group c 1)

/-- The called names of a line, one per match of `funcCallRegex`, in order. -/
def funcCallNames (cleanLine : Str) : List Str :=
  (regexMatches funcCallRegex cleanLine).map (fun c => group c 1)

/-- The name a line declares when `varDefRegex` is found in it:
`varMatch[2].str()`. -/
def varDefName (cleanLine : Str) : Option Str :=
  (regexSearch varDefRegex cleanLine).map (fun c => group c 2)

/-- The names a line uses, one per match of `varUseRegex`, in order. -/
def varUseNames (cleanLine : Str) : List Str :=
  (regexMatches varUseRegex cleanLine).map (fun c => group c 1)

/-! ## The state of the optimizer -/

/-- The map `functionCalls`: keys with their call lists. -/
abbrev CallMap := List (Str × List Str)

/-- The entry of a key, when the map has one (`std::map::find`). -/
def mapFind : CallMap → Str → Option (List Str)
  | [], _ => none
  | (k', v) :: m, k => if k' = k then some v else mapFind m k

/-- The keys of the map. -/
def mapKeys (m : CallMap) : List Str := m.map (fun e => e.1)

/-- The call list read through `m[k]`: empty when the key is new. -/
def mapGet (m : CallMap) (k : Str) : List Str :=
  match mapFind m k with
  | some v => v
  | none => []

/-- The map after the expression `m[k]` has been evaluated: a key that was
absent is now present with an empty list. -/
def mapIndex (m : CallMap) (k : Str) : CallMap :=
  match mapFind m k with
  | some _ => m
  | none => m ++ [(k, [])]

/-- The map after `m[k] = v`. -/
def mapAssign (m : CallMap) (k : Str) (v : List Str) : CallMap :=
  match mapFind m k with
  | some _ => m.map (fun e => if e.1 = k then (k, v) else e)
  | none => m ++ [(k, v)]

/-- The map after `m[k].push_back(x)`. -/
def mapPush (m : CallMap) (k : Str) (x : Str) : CallMap :=
  mapAssign m k (mapGet m k ++ [x])

/-- The data members of `class CppOptimizer` (the pattern `commentRegex` is
the constant of that name above). -/
structure CppOptimizer where
  usedFunctions : List Str
  definedFunctions : List Str
  functionCalls : CallMap
  usedVariables : List Str
  definedVariables : List Str
  lines : List Str
  keepFunctions : List Str
  inGlobalScope : Bool
  currentBraceLevel : Int

/-- A newly constructed optimizer: everything empty, `keepFunctions = {"main"}`,
`inGlobalScope = true`, `currentBraceLevel = 0`. -/
def fresh : CppOptimizer :=
  { usedFunctions := [], definedFunctions := [], functionCalls := [],
    usedVariables := [], definedVariables := [], lines := [],
    keepFunctions := ["main".data], inGlobalScope := true, currentBraceLevel := 0 }

/-! ## Machine integers -/

/-- Conversion to `int`: the value modulo `2^32` in `[-2^31, 2^31)`. -/
def wrap32 (x : Int) : Int := (x + 2147483648) % 4294967296 - 2147483648

/-- The statement `currentBraceLevel += openBraces - closeBraces` where the two
counts are `size_t`: the difference is taken modulo `2^64`, the `int` is
converted to `size_t`, the sum is taken modulo `2^64` and converted to `int`. -/
def addBraces (level : Int) (openBraces closeBraces : Nat) : Int :=
  wrap32 ((level % 18446744073709551616 +
    ((openBraces : Int) - (closeBraces : Int)) % 18446744073709551616) % 18446744073709551616)

/-- The call `std::count(s.begin(), s.end(), c)`. -/
def countChar (c : Char) (s : Str) : Nat := s.count c

/-! ## `skipFunction` -/

/-- The `while` loop of `skipFunction` over the lines from index `i` on
(`rest` is `lines` from `i`): it returns the value of `i` when the loop ends. -/
def skipWhile : List Str → Int → Nat → Nat
  | [], _, i => i
  | line :: rest, braceCount, i =>
    if braceCount > 0 then
      skipWhile rest
        (wrap32 (wrap32 (braceCount + countChar '{' line) - countChar '}' line)) (i + 1)
    else i

/-- The method `skipFunction(i)`: the new value of `i`. -/
def skipFunction (lines : List Str) (i : Nat) : Nat :=
  let j := skipWhile (lines.drop (i + 1)) 1 (i + 1)
  if j < lines.length then j - 1 else j

/-! ## `isWhitespaceOrComment`, `loadCode`, `getOptimizedCode` -/

/-- The method `isWhitespaceOrComment`. -/
def isWhitespaceOrComment (line : Str) : Bool :=
  (stripComments line).all (fun c => isSpace c || c == '\x00')

/-- The lines that successive calls of `std::getline` read from a stream over
the text, until the call that fails: the text is cut at every `'\n'`, and a
text that is empty or ends in `'\n'` has no further line after it. -/
def getLines : Str → List Str
  | [] => []
  | c :: cs =>
    if c = '\n' then [] :: getLines cs
    else
      match getLines cs with
      | [] => [[c]]
      | l :: ls => (c :: l) :: ls

/-- The method `loadCode`. -/
def loadCode (o : CppOptimizer) (code : Str) : CppOptimizer :=
  (getLines code).foldl
    (fun o line => if !isWhitespaceOrComment line then { o with lines := o.lines ++ [line] } else o)
    o

/-- The method `getOptimizedCode`. -/
def getOptimizedCode (o : CppOptimizer) : Str :=
  (o.lines.map (fun line => line ++ ['\n'])).flatten

/-! ## `analyze` -/

/-- The loop over the matches of `funcCallRegex` in `analyze`. -/
def recordCalls (currentFunction : Str) (o : CppOptimizer) (called : List Str) : CppOptimizer :=
  called.foldl
    (fun o calledFunc =>
      if currentFunction ≠ [] ∧ calledFunc ∈ o.definedFunctions then
        { o with functionCalls := mapPush o.functionCalls currentFunction calledFunc }
      else o)
    o

/-- The loop over the matches of `varUseRegex` in `analyze`. -/
def recordUses (o : CppOptimizer) (names : List Str) : CppOptimizer :=
  names.foldl
    (fun o varName =>
      if varName ∈ o.definedVariables then
        { o with usedVariables := o.usedVariables.insert varName }
      else o)
    o

/-- The body of the `for` loop of `analyze` for one line; the second
component is the local variable `currentFunction`. -/
def analyzeLine (s : CppOptimizer × Str) (line : Str) : CppOptimizer × Str :=
  let o := s.1
  let cleanLine := stripComments line
  let level := addBraces o.currentBraceLevel (countChar '{' cleanLine) (countChar '}' cleanLine)
  let o1 := { o with currentBraceLevel := level, inGlobalScope := level == 0 }
  let s2 : CppOptimizer × Str :=
    match funcDefName cleanLine with
    | some funcName =>
      ({ o1 with definedFunctions := o1.definedFunctions.insert funcName,
                 functionCalls := mapAssign o1.functionCalls funcName [] }, funcName)
    | none => (o1, s.2)
  let currentFunction := s2.2
  let o3 := recordCalls currentFunction s2.1 (funcCallNames cleanLine)
  let o4 :=
    match varDefName cleanLine with
    | some varName =>
      { o3 with definedVariables := o3.definedVariables.insert varName,
                usedVariables :=
                  if !o3.inGlobalScope then o3.usedVariables.insert varName
                  else o3.usedVariables }
    | none => o3
  let o5 :=
    if !o4.inGlobalScope && currentFunction ≠ [] then recordUses o4 (varUseNames cleanLine)
    else o4
  (o5, currentFunction)

/-- The `for` loop of `analyze`, `currentFunction` starting empty. -/
def analyzeScan (o : CppOptimizer) : CppOptimizer × Str :=
  o.lines.foldl analyzeLine (o, [])

/-- The recursive method `findUsedFunctions`, with a bound on the depth of
the recursion: `none` when the bound is reached. -/
def findUsedFunctionsFuel : Nat → CppOptimizer → Str → Option CppOptimizer
  | 0, _, _ => none
  | fuel + 1, o, funcName =>
    if funcName ∈ o.usedFunctions ∨ funcName ∉ o.definedFunctions then some o
    else
      let o1 := { o with usedFunctions := o.usedFunctions.insert funcName,
                         functionCalls := mapIndex o.functionCalls funcName }
      (mapGet o1.functionCalls funcName).foldl
        (fun acc calledFunc =>
          match acc with
          | none => none
          | some o2 =>
            if calledFunc ≠ funcName then findUsedFunctionsFuel fuel o2 calledFunc
            else some o2)
        (some o1)

/-- The method `findUsedFunctions`: the recursion is at most one deeper than
the number of defined functions. -/
def findUsedFunctions (o : CppOptimizer) (funcName : Str) : Option CppOptimizer :=
  findUsedFunctionsFuel (o.definedFunctions.length + 1) o funcName

/-- The method `analyze`. -/
def analyze (o : CppOptimizer) : Option CppOptimizer :=
  findUsedFunctions (analyzeScan o).1 "main".data

/-! ## `optimize` -/

/-- The local variables of `optimize` and the two members it updates while it
scans. -/
structure OptState where
  optimizedLines : List Str
  currentFunction : Str
  inGlobalScope : Bool
  currentBraceLevel : Int

/-- The `for` loop of `optimize` from index `i`, with a bound on the number of
iterations: `none` when the bound is reached before the end of the lines. -/
def optimizeLoop (o : CppOptimizer) : Nat → Nat → OptState → Option OptState
  | 0, i, a => if i < o.lines.length then none else some a
  | fuel + 1, i, a =>
    match o.lines[i]? with
    | none => some a
    | some line =>
      let cleanLine := stripComments line
      let level := addBraces a.currentBraceLevel (countChar '{' cleanLine) (countChar '}' cleanLine)
      let a1 := { a with currentBraceLevel := level, inGlobalScope := level == 0 }
      match funcDefName cleanLine with
      | some funcName =>
        if funcName ∈ o.usedFunctions ∨ funcName ∈ o.keepFunctions then
          optimizeLoop o fuel (i + 1)
            { a1 with optimizedLines := a1.optimizedLines ++ [line], currentFunction := funcName }
        else
          optimizeLoop o fuel (skipFunction o.lines i + 1) a1
      | none =>
        match varDefName cleanLine with
        | some varName =>
          if varName ∉ o.usedVariables then optimizeLoop o fuel (i + 1) a1
          else optimizeLoop o fuel (i + 1) { a1 with optimizedLines := a1.optimizedLines ++ [line] }
        | none =>
          optimizeLoop o fuel (i + 1) { a1 with optimizedLines := a1.optimizedLines ++ [line] }

/-- The method `optimize`: every iteration of the loop advances `i`, so the
number of lines bounds the number of iterations. -/
def optimize (o : CppOptimizer) : Option CppOptimizer :=
  match optimizeLoop o o.lines.length 0
      { optimizedLines := [], currentFunction := [], inGlobalScope := true,
        currentBraceLevel := 0 } with
  | none => none
  | some a =>
    some { o with lines := a.optimizedLines, inGlobalScope := a.inGlobalScope,
                  currentBraceLevel := a.currentBraceLevel }

/-- The body of `MainWindow::optimizeCode` on the member `optimizer`: the
optimizer afterwards and the text returned. -/
def optimizeCode (o : CppOptimizer) (code : Str) : Option (CppOptimizer × Str) :=
  match analyze (loadCode o code) with
  | none => none
  | some o2 =>
    match optimize o2 with
    | none => none
    | some o3 => some (o3, getOptimizedCode o3)

/-! ## Reading the scan of `optimize` -/

/-- Whether `optimize` treats a line as the header of a function it removes:
the pattern `funcDefRegex` is found and the name is neither in
`usedFunctions` nor in `keepFunctions`. -/
def droppedHeader (o : CppOptimizer) (line : Str) : Bool :=
  match funcDefName (stripComments line) with
  | some funcName => !decide (funcName ∈ o.usedFunctions ∨ funcName ∈ o.keepFunctions)
  | none => false

/-- Whether `optimize` pushes a line it examines onto `optimizedLines`. -/
def emitted (o : CppOptimizer) (line : Str) : Bool :=
  match funcDefName (stripComments line) with
  | some funcName => decide (funcName ∈ o.usedFunctions ∨ funcName ∈ o.keepFunctions)
  | none =>
    match varDefName (stripComments line) with
    | some varName => decide (varName ∈ o.usedVariables)
    | none => true

/-- The index the loop of `optimize` examines after index `i`. -/
def nextIndex (o : CppOptimizer) (i : Nat) : Nat :=
  match o.lines[i]? with
  | some line => if droppedHeader o line then skipFunction o.lines i + 1 else i + 1
  | none => i + 1

/-- The state of the loop of `optimize` after the iteration on a line. -/
def optStep (o : CppOptimizer) (a : OptState) (line : Str) : OptState :=
  let cleanLine := stripComments line
  let level := addBraces a.currentBraceLevel (countChar '{' cleanLine) (countChar '}' cleanLine)
  { optimizedLines := if emitted o line then a.optimizedLines ++ [line] else a.optimizedLines,
    currentFunction :=
      match funcDefName cleanLine with
      | some funcName =>
        if funcName ∈ o.usedFunctions ∨ funcName ∈ o.keepFunctions then funcName
        else a.currentFunction
      | none => a.currentFunction,
    inGlobalScope := level == 0,
    currentBraceLevel := level }

/-- The indices the loop of `optimize` examines: `0`, and after an examined
index the one `nextIndex` gives. -/
def Examined (o : CppOptimizer) (j : Nat) : Prop :=
  ∃ k : Nat, (nextIndex o)^[k] 0 = j

/-! ## Reading the call graph -/

/-- An edge of the call graph: `g` is in the call list `functionCalls[f]`. -/
def callsEdge (o : CppOptimizer) (f g : Str) : Prop :=
  g ∈ mapGet o.functionCalls f

/-- The number of defined functions not yet in `usedFunctions`: it bounds the
depth the recursion of `findUsedFunctions` can still reach. -/
def unmarked (o : CppOptimizer) : Nat :=
  o.definedFunctions.countP (fun x => decide (x ∉ o.usedFunctions))

/-- What a run of `findUsedFunctions` may change between two states: names
of defined functions are added to `usedFunctions`, `operator[]` may add keys
with empty lists, and nothing else changes. -/
structure DfsExt (o o' : CppOptimizer) : Prop where
  defined : o'.definedFunctions = o.definedFunctions
  usedVars : o'.usedVariables = o.usedVariables
  definedVars : o'.definedVariables = o.definedVariables
  lines : o'.lines = o.lines
  keep : o'.keepFunctions = o.keepFunctions
  scope : o'.inGlobalScope = o.inGlobalScope
  level : o'.currentBraceLevel = o.currentBraceLevel
  calls : ∀ k, mapGet o'.functionCalls k = mapGet o.functionCalls k
  entries : ∀ e ∈ o'.functionCalls,
    e ∈ o.functionCalls ∨ (e.1 ∈ o.definedFunctions ∧ e.2 = [])
  usedMono : ∀ x ∈ o.usedFunctions, x ∈ o'.usedFunctions
  usedNew : ∀ x ∈ o'.usedFunctions, x ∉ o.usedFunctions → x ∈ o.definedFunctions

/-- What a run of `findUsedFunctions` from `f` establishes: the root is
marked when it is defined, every newly marked name is reached from the root
along edges, and every defined callee of a newly marked name is marked. -/
structure DfsPost (o : CppOptimizer) (f : Str) (o' : CppOptimizer) : Prop where
  ext : DfsExt o o'
  root : f ∈ o.definedFunctions → f ∈ o'.usedFunctions
  reach : ∀ x ∈ o'.usedFunctions, x ∉ o.usedFunctions →
    Relation.ReflTransGen (callsEdge o) f x
  closed : ∀ x ∈ o'.usedFunctions, x ∉ o.usedFunctions →
    ∀ g, callsEdge o x g → g ∈ o.definedFunctions → g ∈ o'.usedFunctions

/-- The call graph mentions defined functions only: every key and every
name in a call list is in `definedFunctions`. -/
def GraphInv (o : CppOptimizer) : Prop :=
  ∀ e ∈ o.functionCalls, e.1 ∈ o.definedFunctions ∧ ∀ g ∈ e.2, g ∈ o.definedFunctions

/-- The text of the spec for the lines `loadCode` discards: the
comment-stripped content is empty or all whitespace. -/
def isBlankLine (line : Str) : Bool :=
  (stripComments line).all isSpace

/-- The name of the entry point, `main`. -/
def mainName : Str := "main".data

/-- The lines a scan reads, each with the value of `currentBraceLevel` after
the scan has updated it for that line, from a given starting level. -/
def linesWithLevel : Int → List Str → List (Int × Str)
  | _, [] => []
  | level, line :: rest =>
    let level' := addBraces level (countChar '{' (stripComments line))
      (countChar '}' (stripComments line))
    (level', line) :: linesWithLevel level' rest

/-! ## Reading the output of `optimize` -/

/-- The indices the loop of `optimize` examines from index `i` on, in order;
the first argument bounds their number as in `optimizeLoop`. -/
def examinedFrom (o : CppOptimizer) : Nat → Nat → List Nat
  | 0, _ => []
  | fuel + 1, i =>
    if i < o.lines.length then i :: examinedFrom o fuel (nextIndex o i) else []

/-- The indices the loop of `optimize` examines, in order. -/
def examinedIndices (o : CppOptimizer) : List Nat :=
  examinedFrom o o.lines.length 0

/-- The line at an index, when `optimize` pushes it on examining that index. -/
def keptLine (o : CppOptimizer) (i : Nat) : Option Str :=
  match o.lines[i]? with
  | some line => if emitted o line then some line else none
  | none => none

/-- The lines `loadCode` can store: no line break inside, and not discarded by
`isWhitespaceOrComment`. -/
def LoadedLines (ls : List Str) : Prop :=
  ∀ l ∈ ls, '\n' ∉ l ∧ isWhitespaceOrComment l = false

/-- The round trip of the text interface holds for an optimizer: loading the
text of `getOptimizedCode` into a fresh optimizer gives the same lines and the
same text. -/
def RoundTrips (o : CppOptimizer) : Prop :=
  (loadCode fresh (getOptimizedCode o)).lines = o.lines ∧
    getOptimizedCode (loadCode fresh (getOptimizedCode o)) = getOptimizedCode o

/-! ## Reading `skipFunction` and the scope depth -/

/-- One iteration of the `while` loop of `skipFunction` on `braceCount`. -/
def braceStep (braceCount : Int) (line : Str) : Int :=
  wrap32 (wrap32 (braceCount + countChar '{' line) - countChar '}' line)

/-- The value of `braceCount` in `skipFunction(h)` once the lines `h+1` to `j`
have been counted: it starts at 1 and each line adds its count of `{` and
subtracts its count of `}`, in `int` arithmetic. -/
def skipBalance (lines : List Str) (h j : Nat) : Int :=
  ((lines.drop (h + 1)).take (j - h)).foldl braceStep 1

/-- The total count of `{` minus the total count of `}` over the
comment-stripped text of some lines, as an integer. -/
def braceTotal (ls : List Str) : Int :=
  (ls.map (fun l =>
    (countChar '{' (stripComments l) : Int) - (countChar '}' (stripComments l) : Int))).sum

/-- An optimizer whose first line is the header of a function that `optimize`
removes: the text below is loaded and `analyze` is not run. -/
def skipExample : CppOptimizer :=
  loadCode fresh "int f()\x7b\nint a = 1;\n\x7d\nint main()\x7b\n\x7d".data

/-! ## Reading the visits of `findUsedFunctions` -/

/-- The method `findUsedFunctions` as in `findUsedFunctionsFuel`, returning in
addition the names it visits, in order: a visit is a call that passes the
test of the first line and marks its name. -/
def findUsedFunctionsVisits : Nat → CppOptimizer → Str → Option (CppOptimizer × List Str)
  | 0, _, _ => none
  | fuel + 1, o, funcName =>
    if funcName ∈ o.usedFunctions ∨ funcName ∉ o.definedFunctions then some (o, [])
    else
      let o1 := { o with usedFunctions := o.usedFunctions.insert funcName,
                         functionCalls := mapIndex o.functionCalls funcName }
      (mapGet o1.functionCalls funcName).foldl
        (fun acc calledFunc =>
          match acc with
          | none => none
          | some (o2, visits) =>
            if calledFunc ≠ funcName then
              match findUsedFunctionsVisits fuel o2 calledFunc with
              | none => none
              | some (o3, visits') => some (o3, visits ++ visits')
            else some (o2, visits))
        (some (o1, [funcName]))

/-- What the visits of a run of `findUsedFunctions` from the state `o` are:
distinct names, each a defined function that was not marked in `o`, and the
names marked afterwards are those marked in `o` and the visited ones. -/
def VisitsOnce (o : CppOptimizer) (r : CppOptimizer × List Str) : Prop :=
  r.2.Nodup ∧ (∀ x ∈ r.2, x ∈ o.definedFunctions ∧ x ∉ o.usedFunctions) ∧
    (∀ x, x ∈ r.1.usedFunctions ↔ x ∈ o.usedFunctions ∨ x ∈ r.2) ∧
    r.1.definedFunctions = o.definedFunctions

/-- A text whose call graph has self-edges and a cycle through `f` and `g`. -/
def cycleExample : Str :=
  "int f();\nint g()\x7b\nint a = f();\n\x7d\nint f()\x7b\nint b = g();\n\x7d\nint main()\x7b\nint c = f();\n\x7d".data

/-- The total count of `{` minus the total count of `}` over some lines as
`skipFunction` reads them (comments included), as an integer. -/
def rawBraceTotal (ls : List Str) : Int :=
  (ls.map (fun l => (countChar '{' l : Int) - (countChar '}' l : Int))).sum

/-- The number of characters of some lines. -/
def totalLength (ls : List Str) : Nat :=
  (ls.map List.length).sum

/-! ## Lemmas: the counter of `starLoop` -/

theorem starLoop_succ_eq (greedy : Bool) (body : Matcher) (n : Nat) (p : Pos) (c : Caps)
    (k : Cont) :
    starLoop greedy body (n + 1) p c k =
      if greedy then
        match body p c (fun p' c' =>
            if p'.rest.length < p.rest.length then starLoop greedy body n p' c' k else none) with
        | some r => some r
        | none => k p c
      else
        match k p c with
        | some r => some r
        | none => body p c (fun p' c' =>
            if p'.rest.length < p.rest.length then starLoop greedy body n p' c' k else none) :=
  rfl

theorem starLoop_none (greedy : Bool) (body : Matcher)
    (hbody : ∀ p c, body p c (fun _ _ => none) = none) :
    ∀ (n : Nat) (p : Pos) (c : Caps), starLoop greedy body n p c (fun _ _ => none) = none := by
  intro n
  induction n with
  | zero => intro p c; rfl
  | succ n ih =>
    intro p c
    have hk : (fun (p' : Pos) (c' : Caps) =>
        if p'.rest.length < p.rest.length then starLoop greedy body n p' c' (fun _ _ => none)
        else none) = fun _ _ => none := by
      funext p' c'
      split
      · exact ih p' c'
      · rfl
    rw [starLoop_succ_eq, hk, hbody]
    split <;> rfl

/-- A match is always handed to the continuation: when the continuation
refuses everything, so does the matcher. -/
theorem matchRe_none (r : Regex) :
    ∀ (p : Pos) (c : Caps), matchRe r p c (fun _ _ => none) = none := by
  induction r with
  | eps => intro p c; rfl
  | cls f =>
    intro p c
    simp only [matchRe]
    split
    · rfl
    · split <;> rfl
  | seq a b iha ihb =>
    intro p c
    have hk : (fun (p' : Pos) (c' : Caps) => matchRe b p' c' (fun _ _ => none)) =
        fun _ _ => none := by
      funext p' c'
      exact ihb p' c'
    simp only [matchRe, hk, iha]
  | alt a b iha ihb =>
    intro p c
    simp only [matchRe, iha, ihb]
  | star g r ih =>
    intro p c
    simp only [matchRe]
    exact starLoop_none g (matchRe r) ih _ p c
  | group n r ih =>
    intro p c
    simp only [matchRe]
    exact ih p c
  | wordBoundary =>
    intro p c
    simp only [matchRe]
    split <;> rfl
  | lookahead r _ =>
    intro p c
    simp only [matchRe]
    split <;> rfl

/-- The counter of `starLoop` never cuts a repetition short: from the number
of characters left, one more unit changes nothing. -/
theorem starLoop_counter (greedy : Bool) (r : Regex) :
    ∀ (n : Nat) (p : Pos) (c : Caps) (k : Cont), p.rest.length ≤ n →
      starLoop greedy (matchRe r) (n + 1) p c k = starLoop greedy (matchRe r) n p c k := by
  intro n
  induction n with
  | zero =>
    intro p c k h
    have hk : (fun (p' : Pos) (c' : Caps) =>
        if p'.rest.length < p.rest.length then starLoop greedy (matchRe r) 0 p' c' k
        else none) = fun _ _ => none := by
      funext p' c'
      rw [if_neg (by omega)]
    rw [starLoop_succ_eq, hk, matchRe_none]
    show _ = k p c
    cases greedy with
    | true => rfl
    | false =>
      simp only [Bool.false_eq_true, if_false]
      cases k p c <;> rfl
  | succ n ih =>
    intro p c k h
    have hk : (fun (p' : Pos) (c' : Caps) =>
        if p'.rest.length < p.rest.length then starLoop greedy (matchRe r) (n + 1) p' c' k
        else none) =
        fun p' c' =>
          if p'.rest.length < p.rest.length then starLoop greedy (matchRe r) n p' c' k
          else none := by
      funext p' c'
      split
      · exact ih p' c' k (by omega)
      · rfl
    rw [starLoop_succ_eq _ _ (n + 1), starLoop_succ_eq _ _ n, hk]

/-! ## Lemmas: the loop of `optimize` -/

theorem skipWhile_ge (rest : List Str) (bc : Int) (i : Nat) : i ≤ skipWhile rest bc i := by
  induction rest generalizing bc i with
  | nil => simp [skipWhile]
  | cons l ls ih =>
    simp only [skipWhile]
    split
    · exact Nat.le_trans (Nat.le_succ i) (ih _ _)
    · exact Nat.le_refl i

theorem skipFunction_ge (lines : List Str) (i : Nat) : i ≤ skipFunction lines i := by
  have h := skipWhile_ge (lines.drop (i + 1)) 1 (i + 1)
  simp only [skipFunction]
  split <;> omega

theorem nextIndex_gt (o : CppOptimizer) (i : Nat) : i < nextIndex o i := by
  have h := skipFunction_ge o.lines i
  unfold nextIndex
  split
  · split <;> omega
  · omega

theorem iterate_nextIndex_ge (o : CppOptimizer) (k i : Nat) : i ≤ (nextIndex o)^[k] i := by
  induction k with
  | zero => simp
  | succ k ih =>
    rw [Function.iterate_succ_apply']
    exact Nat.le_trans ih (Nat.le_of_lt (nextIndex_gt o _))

theorem optimizeLoop_succ (o : CppOptimizer) (fuel i : Nat) (a : OptState) :
    optimizeLoop o (fuel + 1) i a =
      match o.lines[i]? with
      | none => some a
      | some line => optimizeLoop o fuel (nextIndex o i) (optStep o a line) := by
  rw [optimizeLoop]
  cases hl : o.lines[i]? with
  | none => rfl
  | some line =>
    simp only [nextIndex, hl, optStep, emitted, droppedHeader]
    rcases Option.eq_none_or_eq_some (funcDefName (stripComments line)) with hf | ⟨f, hf⟩
    · rcases Option.eq_none_or_eq_some (varDefName (stripComments line)) with hv | ⟨v, hv⟩
      · simp [hf, hv]
      · by_cases hu : v ∈ o.usedVariables
        · simp [hf, hv, hu]
        · simp [hf, hv, hu]
    · by_cases hk : f ∈ o.usedFunctions ∨ f ∈ o.keepFunctions
      · simp [hf, hk]
      · simp [hf, hk]

theorem optStep_lines (o : CppOptimizer) (a : OptState) (line : Str) :
    (optStep o a line).optimizedLines =
      if emitted o line then a.optimizedLines ++ [line] else a.optimizedLines := rfl

/-- The loop of `optimize` returns, and what it returns: a subsequence of the
lines, that keeps what was emitted before, adds only lines `emitted` accepts,
and holds every such line at an index the loop examines. -/
theorem optimizeLoop_spec (o : CppOptimizer) :
    ∀ (fuel i : Nat) (a : OptState), o.lines.length ≤ i + fuel →
      ∃ a', optimizeLoop o fuel i a = some a' ∧
        (a.optimizedLines.Sublist (o.lines.take i) → a'.optimizedLines.Sublist o.lines) ∧
        (∀ l ∈ a'.optimizedLines, l ∈ a.optimizedLines ∨ (l ∈ o.lines ∧ emitted o l = true)) ∧
        (∀ l ∈ a.optimizedLines, l ∈ a'.optimizedLines) ∧
        (∀ (k : Nat) (l : Str), o.lines[(nextIndex o)^[k] i]? = some l → emitted o l = true →
          l ∈ a'.optimizedLines) := by
  intro fuel
  induction fuel with
  | zero =>
    intro i a h
    have hi : ¬ i < o.lines.length := by omega
    refine ⟨a, by simp [optimizeLoop, hi], ?_, ?_, ?_, ?_⟩
    · intro hs
      rwa [List.take_of_length_le (by omega)] at hs
    · intro l hl; exact Or.inl hl
    · intro l hl; exact hl
    · intro k l hl _
      have hge := iterate_nextIndex_ge o k i
      have := (List.getElem?_eq_some_iff.mp hl).1
      omega
  | succ fuel ih =>
    intro i a h
    rw [optimizeLoop_succ]
    cases hl : o.lines[i]? with
    | none =>
      have hi : o.lines.length ≤ i := by
        rcases Nat.lt_or_ge i o.lines.length with h1 | h1
        · rw [List.getElem?_eq_getElem h1] at hl; cases hl
        · exact h1
      refine ⟨a, rfl, ?_, ?_, ?_, ?_⟩
      · intro hs
        rwa [List.take_of_length_le hi] at hs
      · intro l hl; exact Or.inl hl
      · intro l hl; exact hl
      · intro k l hl' _
        have hge := iterate_nextIndex_ge o k i
        have := (List.getElem?_eq_some_iff.mp hl').1
        omega
    | some line =>
      obtain ⟨hlt, hline⟩ := List.getElem?_eq_some_iff.mp hl
      have hnext := nextIndex_gt o i
      obtain ⟨a', he, h1, h2, h3, h4⟩ := ih (nextIndex o i) (optStep o a line) (by omega)
      refine ⟨a', he, ?_, ?_, ?_, ?_⟩
      · intro hs
        apply h1
        have htake : o.lines.take (i + 1) = o.lines.take i ++ [line] := by
          rw [List.take_succ, hl]; rfl
        have hsub : (o.lines.take (i + 1)).Sublist (o.lines.take (nextIndex o i)) :=
          List.take_sublist_take_left o.lines (by omega : i + 1 ≤ nextIndex o i)
        refine List.Sublist.trans ?_ hsub
        rw [htake, optStep_lines]
        split
        · exact List.Sublist.append hs (List.Sublist.refl _)
        · exact List.Sublist.trans hs (List.sublist_append_left _ _)
      · intro l hl'
        rcases h2 l hl' with h | h
        · rw [optStep_lines] at h
          split at h
          · rename_i hem
            rcases List.mem_append.mp h with h | h
            · exact Or.inl h
            · rw [List.mem_singleton] at h
              subst h
              exact Or.inr ⟨hline ▸ List.getElem_mem _, hem⟩
          · exact Or.inl h
        · exact Or.inr h
      · intro l hl'
        apply h3
        rw [optStep_lines]
        split
        · exact List.mem_append_left _ hl'
        · exact hl'
      · intro k l hl' hem
        cases k with
        | zero =>
          simp only [Function.iterate_zero, id_eq] at hl'
          rw [hl] at hl'
          cases hl'
          apply h3
          rw [optStep_lines, hem]
          simp
        | succ k =>
          rw [Function.iterate_succ_apply] at hl'
          exact h4 k l hl' hem

/-- The method `optimize` returns; its lines are a subsequence of the lines
it started from, all accepted by `emitted`, among them every accepted line at
an examined index; the analysis results are left as they were. -/
theorem optimize_spec (o : CppOptimizer) :
    ∃ o', optimize o = some o' ∧ o'.lines.Sublist o.lines ∧
      (∀ l ∈ o'.lines, l ∈ o.lines ∧ emitted o l = true) ∧
      (∀ (j : Nat) (l : Str), Examined o j → o.lines[j]? = some l → emitted o l = true →
        l ∈ o'.lines) ∧
      o'.usedFunctions = o.usedFunctions ∧ o'.keepFunctions = o.keepFunctions ∧
      o'.usedVariables = o.usedVariables ∧ o'.definedFunctions = o.definedFunctions ∧
      o'.functionCalls = o.functionCalls ∧ o'.definedVariables = o.definedVariables := by
  obtain ⟨a', he, h1, h2, _, h4⟩ := optimizeLoop_spec o o.lines.length 0
    { optimizedLines := [], currentFunction := [], inGlobalScope := true,
      currentBraceLevel := 0 } (by omega)
  refine ⟨{ o with lines := a'.optimizedLines, inGlobalScope := a'.inGlobalScope,
                   currentBraceLevel := a'.currentBraceLevel }, ?_, ?_, ?_, ?_,
    rfl, rfl, rfl, rfl, rfl, rfl⟩
  · simp only [optimize, he]
  · exact h1 (by simp)
  · intro l hl
    rcases h2 l hl with h | h
    · simp at h
    · exact h
  · rintro j l ⟨k, rfl⟩ hl hem
    exact h4 k l hl hem

/-! ## Lemmas: the map `functionCalls` -/

theorem mapFind_append (m m' : CallMap) (k : Str) :
    mapFind (m ++ m') k = match mapFind m k with
      | some v => some v
      | none => mapFind m' k := by
  induction m with
  | nil => simp [mapFind]
  | cons e m ih =>
    obtain ⟨k', v⟩ := e
    simp only [List.cons_append, mapFind]
    split
    · rfl
    · exact ih

theorem mapFind_some_mem {m : CallMap} {k : Str} {v : List Str} (h : mapFind m k = some v) :
    (k, v) ∈ m := by
  induction m with
  | nil => simp [mapFind] at h
  | cons e m ih =>
    obtain ⟨k', v'⟩ := e
    simp only [mapFind] at h
    split at h
    · rename_i hk
      cases h
      subst hk
      exact List.mem_cons_self _ _
    · exact List.mem_cons_of_mem _ (ih h)

theorem mapGet_mem {m : CallMap} {k g : Str} (h : g ∈ mapGet m k) :
    ∃ v, (k, v) ∈ m ∧ g ∈ v := by
  unfold mapGet at h
  split at h
  · rename_i v hv
    exact ⟨v, mapFind_some_mem hv, h⟩
  · simp at h

theorem mapGet_mapIndex (m : CallMap) (k k' : Str) :
    mapGet (mapIndex m k) k' = mapGet m k' := by
  unfold mapIndex
  split
  · rfl
  · rename_i hk
    unfold mapGet
    rw [mapFind_append]
    cases hm : mapFind m k' with
    | some v => rfl
    | none =>
      simp only [mapFind]
      by_cases hkk : k = k'
      · simp [hkk]
      · simp [hkk]

theorem mem_mapIndex {m : CallMap} {k : Str} {e : Str × List Str} (h : e ∈ mapIndex m k) :
    e ∈ m ∨ e = (k, []) := by
  unfold mapIndex at h
  split at h
  · exact Or.inl h
  · simpa using h

theorem mem_mapAssign {m : CallMap} {k : Str} {v : List Str} {e : Str × List Str}
    (h : e ∈ mapAssign m k v) : e ∈ m ∨ e = (k, v) := by
  unfold mapAssign at h
  split at h
  · obtain ⟨e', he', rfl⟩ := List.mem_map.mp h
    split
    · exact Or.inr rfl
    · exact Or.inl he'
  · simpa using h

theorem mem_mapPush {m : CallMap} {k x : Str} {e : Str × List Str}
    (h : e ∈ mapPush m k x) : e ∈ m ∨ (e.1 = k ∧ ∀ g ∈ e.2, g = x ∨ ∃ v, (k, v) ∈ m ∧ g ∈ v) := by
  rcases mem_mapAssign h with h | h
  · exact Or.inl h
  · subst h
    refine Or.inr ⟨rfl, ?_⟩
    intro g hg
    rcases List.mem_append.mp hg with hg | hg
    · exact Or.inr (mapGet_mem hg)
    · exact Or.inl (by simpa using hg)

/-! ## Lemmas: `findUsedFunctions` -/

theorem DfsExt.refl (o : CppOptimizer) : DfsExt o o :=
  { defined := rfl, usedVars := rfl, definedVars := rfl, lines := rfl, keep := rfl,
    scope := rfl, level := rfl, calls := fun _ => rfl, entries := fun _ h => Or.inl h,
    usedMono := fun _ h => h, usedNew := fun _ h hn => absurd h hn }

theorem DfsExt.trans {o o' o'' : CppOptimizer} (h : DfsExt o o') (h' : DfsExt o' o'') :
    DfsExt o o'' :=
  { defined := h'.defined.trans h.defined
    usedVars := h'.usedVars.trans h.usedVars
    definedVars := h'.definedVars.trans h.definedVars
    lines := h'.lines.trans h.lines
    keep := h'.keep.trans h.keep
    scope := h'.scope.trans h.scope
    level := h'.level.trans h.level
    calls := fun k => (h'.calls k).trans (h.calls k)
    entries := fun e he => by
      rcases h'.entries e he with he | he
      · exact h.entries e he
      · exact Or.inr (by rw [← h.defined]; exact he)
    usedMono := fun x hx => h'.usedMono x (h.usedMono x hx)
    usedNew := fun x hx hn => by
      by_cases hx' : x ∈ o'.usedFunctions
      · exact h.usedNew x hx' hn
      · rw [← h.defined]; exact h'.usedNew x hx hx' }

theorem callsEdge_congr {o o' : CppOptimizer} (h : DfsExt o o') (f g : Str) :
    callsEdge o' f g ↔ callsEdge o f g := by
  unfold callsEdge
  rw [h.calls]

theorem countP_lt_of_witness {α : Type} (p q : α → Bool) (l : List α)
    (hpq : ∀ x ∈ l, p x = true → q x = true) (x : α) (hx : x ∈ l) (hq : q x = true)
    (hp : p x = false) : l.countP p < l.countP q := by
  induction l with
  | nil => simp at hx
  | cons y l ih =>
    have hmono : l.countP p ≤ l.countP q :=
      List.countP_mono_left (fun z hz => hpq z (List.mem_cons_of_mem _ hz))
    rw [List.countP_cons, List.countP_cons]
    rcases List.mem_cons.mp hx with rfl | hx'
    · simp only [hq, hp, if_true]
      simp
      omega
    · have := ih (fun z hz => hpq z (List.mem_cons_of_mem _ hz)) hx'
      have hy := hpq y (List.mem_cons_self _ _)
      by_cases hpy : p y = true
      · simp only [hpy, hy hpy, if_true]; omega
      · simp only [hpy]
        by_cases hqy : q y = true
        · simp only [hqy, if_true]; simp; omega
        · simp only [hqy]; simp; omega

theorem unmarked_mono {o o' : CppOptimizer} (h : DfsExt o o') : unmarked o' ≤ unmarked o := by
  unfold unmarked
  rw [h.defined]
  apply List.countP_mono_left
  intro x _ hx
  simp only [decide_eq_true_eq] at hx ⊢
  exact fun hc => hx (h.usedMono x hc)

/-- The loop of `findUsedFunctions` over a call list, given that the
recursive calls behave. -/
theorem dfs_fold (fuel : Nat) (f : Str) (o1 : CppOptimizer)
    (hrec : ∀ (o2 : CppOptimizer) (g : Str), unmarked o2 < fuel →
      ∃ o', findUsedFunctionsFuel fuel o2 g = some o' ∧ DfsPost o2 g o')
    (hfuel : unmarked o1 < fuel) :
    ∀ (L : List Str) (o2 : CppOptimizer), DfsExt o1 o2 → f ∈ o2.usedFunctions →
      (∀ g ∈ L, callsEdge o1 f g) →
      ∃ o3, L.foldl
          (fun acc calledFunc =>
            match acc with
            | none => none
            | some o2 =>
              if calledFunc ≠ f then findUsedFunctionsFuel fuel o2 calledFunc
              else some o2)
          (some o2) = some o3 ∧
        DfsExt o2 o3 ∧
        (∀ g ∈ L, g ∈ o1.definedFunctions → g ∈ o3.usedFunctions) ∧
        (∀ x ∈ o3.usedFunctions, x ∉ o2.usedFunctions →
          Relation.ReflTransGen (callsEdge o1) f x) ∧
        (∀ x ∈ o3.usedFunctions, x ∉ o2.usedFunctions →
          ∀ g, callsEdge o1 x g → g ∈ o1.definedFunctions → g ∈ o3.usedFunctions) := by
  intro L
  induction L with
  | nil =>
    intro o2 _ _ _
    exact ⟨o2, rfl, DfsExt.refl o2, fun _ h => by simp at h, fun _ h hn => absurd h hn,
      fun _ h hn => absurd h hn⟩
  | cons g L ih =>
    intro o2 hext hf hL
    rw [List.foldl_cons]
    have hL' : ∀ g ∈ L, callsEdge o1 f g := fun g hg => hL g (List.mem_cons_of_mem _ hg)
    by_cases hg : g = f
    · simp only [hg, ne_eq, not_true_eq_false, if_false]
      obtain ⟨o3, he, hext3, hin, hreach, hclosed⟩ := ih o2 hext hf hL'
      refine ⟨o3, he, hext3, ?_, hreach, hclosed⟩
      intro g' hg' hd
      rcases List.mem_cons.mp hg' with h | hg'
      · rw [h]; exact hext3.usedMono f hf
      · exact hin g' hg' hd
    · obtain ⟨o2', he2, hpost⟩ := hrec o2 g (Nat.lt_of_le_of_lt (unmarked_mono hext) hfuel)
      simp only [ne_eq, hg, not_false_eq_true, if_true, he2]
      obtain ⟨o3, he, hext3, hin, hreach, hclosed⟩ :=
        ih o2' (hext.trans hpost.ext) (hpost.ext.usedMono f hf) hL'
      refine ⟨o3, he, hpost.ext.trans hext3, ?_, ?_, ?_⟩
      · intro g' hg' hd
        rcases List.mem_cons.mp hg' with h | hg'
        · rw [h]; exact hext3.usedMono _ (hpost.root (by rw [hext.defined]; exact h ▸ hd))
        · exact hin g' hg' hd
      · intro x hx hn
        by_cases hx' : x ∈ o2'.usedFunctions
        · have h1 := hpost.reach x hx' hn
          have h2 : Relation.ReflTransGen (callsEdge o1) g x :=
            Relation.ReflTransGen.mono (fun a b h => (callsEdge_congr hext a b).mp h) h1
          exact Relation.ReflTransGen.head (hL g (List.mem_cons_self _ _)) h2
        · exact hreach x hx hx'
      · intro x hx hn g' hedge hd
        by_cases hx' : x ∈ o2'.usedFunctions
        · exact hext3.usedMono _ (hpost.closed x hx' hn g'
            ((callsEdge_congr hext x g').mpr hedge) (by rw [hext.defined]; exact hd))
        · exact hclosed x hx hx' g' hedge hd

/-- The method `findUsedFunctions` returns whenever the bound exceeds the
number of unmarked defined functions, with the post-condition `DfsPost`. -/
theorem findUsedFunctionsFuel_spec :
    ∀ (fuel : Nat) (o : CppOptimizer) (f : Str), unmarked o < fuel →
      ∃ o', findUsedFunctionsFuel fuel o f = some o' ∧ DfsPost o f o' := by
  intro fuel
  induction fuel with
  | zero => intro o f h; omega
  | succ fuel ih =>
    intro o f hfuel
    rw [findUsedFunctionsFuel]
    by_cases h : f ∈ o.usedFunctions ∨ f ∉ o.definedFunctions
    · rw [if_pos h]
      refine ⟨o, rfl, DfsExt.refl o, ?_, fun _ hx hn => absurd hx hn,
        fun _ hx hn => absurd hx hn⟩
      intro hd
      rcases h with h | h
      · exact h
      · exact absurd hd h
    · rw [if_neg h]
      have hnu : f ∉ o.usedFunctions := fun hc => h (Or.inl hc)
      have hdef : f ∈ o.definedFunctions := by_contra fun hc => h (Or.inr hc)
      have hext1 : DfsExt o { o with usedFunctions := o.usedFunctions.insert f,
                                     functionCalls := mapIndex o.functionCalls f } :=
        { defined := rfl, usedVars := rfl, definedVars := rfl, lines := rfl, keep := rfl,
          scope := rfl, level := rfl
          calls := fun k => mapGet_mapIndex _ _ _
          entries := fun e he => by
            rcases mem_mapIndex he with he | he
            · exact Or.inl he
            · subst he; exact Or.inr ⟨hdef, rfl⟩
          usedMono := fun x hx => List.mem_insert_of_mem hx
          usedNew := fun x hx hn => by
            rcases List.mem_insert_iff.mp hx with rfl | hx
            · exact hdef
            · exact absurd hx hn }
      have hlt : unmarked { o with usedFunctions := o.usedFunctions.insert f,
                                   functionCalls := mapIndex o.functionCalls f } < unmarked o := by
        unfold unmarked
        apply countP_lt_of_witness _ _ _ _ f hdef
        · simpa using hnu
        · simp
        · intro x _ hx
          simp only [decide_eq_true_eq] at hx ⊢
          exact fun hc => hx (List.mem_insert_of_mem hc)
      obtain ⟨o3, he, hext3, hin, hreach, hclosed⟩ :=
        dfs_fold fuel f { o with usedFunctions := o.usedFunctions.insert f,
                                 functionCalls := mapIndex o.functionCalls f } ih (by omega)
          (mapGet (mapIndex o.functionCalls f) f) _
          (DfsExt.refl _) (List.mem_insert_self _ _) (fun g hg => hg)
      refine ⟨o3, he, hext1.trans hext3, fun _ => hext3.usedMono f (List.mem_insert_self _ _),
        ?_, ?_⟩
      · intro x hx hn
        by_cases hx' : x ∈ o.usedFunctions.insert f
        · rcases List.mem_insert_iff.mp hx' with rfl | hx'
          · exact Relation.ReflTransGen.refl
          · exact absurd hx' hn
        · exact Relation.ReflTransGen.mono (fun a b h => (callsEdge_congr hext1 a b).mp h)
            (hreach x hx hx')
      · intro x hx hn g hedge hd
        by_cases hx' : x ∈ o.usedFunctions.insert f
        · rcases List.mem_insert_iff.mp hx' with rfl | hx'
          · exact hin g ((callsEdge_congr hext1 x g).mpr hedge) hd
          · exact absurd hx' hn
        · exact hclosed x hx hx' g ((callsEdge_congr hext1 x g).mpr hedge) hd

/-- The method `findUsedFunctions` returns, with the post-condition. -/
theorem findUsedFunctions_spec (o : CppOptimizer) (f : Str) :
    ∃ o', findUsedFunctions o f = some o' ∧ DfsPost o f o' :=
  findUsedFunctionsFuel_spec _ o f
    (Nat.lt_succ_of_le (List.countP_le_length _))

/-! ## Lemmas: `loadCode` -/

theorem loadCode_foldl (ls : List Str) (o : CppOptimizer) :
    ls.foldl
        (fun o line =>
          if !isWhitespaceOrComment line then { o with lines := o.lines ++ [line] } else o)
        o =
      { o with lines := o.lines ++ ls.filter (fun l => !isWhitespaceOrComment l) } := by
  induction ls generalizing o with
  | nil => simp
  | cons l ls ih =>
    rw [List.foldl_cons, ih]
    by_cases h : isWhitespaceOrComment l = true
    · simp [h]
    · simp [h]

theorem loadCode_eq (o : CppOptimizer) (code : Str) :
    loadCode o code =
      { o with lines := o.lines ++ (getLines code).filter (fun l => !isWhitespaceOrComment l) } :=
  loadCode_foldl _ o

/-! ## Lemmas: the scan of `analyze` -/

theorem recordCalls_cons (cur : Str) (o : CppOptimizer) (g : Str) (L : List Str) :
    recordCalls cur o (g :: L) =
      recordCalls cur
        (if cur ≠ [] ∧ g ∈ o.definedFunctions then
          { o with functionCalls := mapPush o.functionCalls cur g }
        else o) L := rfl

theorem recordCalls_eq (cur : Str) (called : List Str) (o : CppOptimizer) :
    recordCalls cur o called =
      { o with functionCalls := (recordCalls cur o called).functionCalls } := by
  induction called generalizing o with
  | nil => rfl
  | cons g L ih =>
    rw [recordCalls_cons, ih]
    split <;> rfl

theorem recordUses_cons (o : CppOptimizer) (v : Str) (L : List Str) :
    recordUses o (v :: L) =
      recordUses
        (if v ∈ o.definedVariables then
          { o with usedVariables := o.usedVariables.insert v }
        else o) L := rfl

theorem recordUses_eq (names : List Str) (o : CppOptimizer) :
    recordUses o names = { o with usedVariables := (recordUses o names).usedVariables } := by
  induction names generalizing o with
  | nil => rfl
  | cons g L ih =>
    rw [recordUses_cons, ih]
    split <;> rfl

theorem mem_recordUses (names : List Str) (o : CppOptimizer) (v : Str) :
    v ∈ (recordUses o names).usedVariables ↔
      v ∈ o.usedVariables ∨ (v ∈ names ∧ v ∈ o.definedVariables) := by
  induction names generalizing o with
  | nil => simp [recordUses]
  | cons g L ih =>
    rw [recordUses_cons, ih]
    by_cases hg : g ∈ o.definedVariables
    · simp only [hg, if_true, List.mem_insert_iff, List.mem_cons]
      constructor
      · rintro ((rfl | h) | ⟨h1, h2⟩)
        · exact Or.inr ⟨Or.inl rfl, hg⟩
        · exact Or.inl h
        · exact Or.inr ⟨Or.inr h1, h2⟩
      · rintro (h | ⟨rfl | h1, h2⟩)
        · exact Or.inl (Or.inr h)
        · exact Or.inl (Or.inl rfl)
        · exact Or.inr ⟨h1, h2⟩
    · simp only [hg, if_false, List.mem_cons]
      constructor
      · rintro (h | ⟨h1, h2⟩)
        · exact Or.inl h
        · exact Or.inr ⟨Or.inr h1, h2⟩
      · rintro (h | ⟨rfl | h1, h2⟩)
        · exact Or.inl h
        · exact absurd h2 hg
        · exact Or.inr ⟨h1, h2⟩

theorem recordCalls_graphInv (cur : Str) (called : List Str) (o : CppOptimizer)
    (hinv : GraphInv o) (hcur : cur ≠ [] → cur ∈ o.definedFunctions) :
    GraphInv (recordCalls cur o called) := by
  induction called generalizing o with
  | nil => exact hinv
  | cons g L ih =>
    rw [recordCalls_cons]
    by_cases h : cur ≠ [] ∧ g ∈ o.definedFunctions
    · rw [if_pos h]
      apply ih
      · intro e he
        rcases mem_mapPush he with he | ⟨hk, hv⟩
        · exact hinv e he
        · refine ⟨?_, ?_⟩
          · show e.1 ∈ o.definedFunctions
            rw [hk]; exact hcur h.1
          intro g' hg'
          rcases hv g' hg' with rfl | ⟨v, hm, hgv⟩
          · exact h.2
          · exact (hinv _ hm).2 g' hgv
      · exact hcur
    · rw [if_neg h]
      exact ih o hinv hcur

@[simp] theorem recordCalls_usedFunctions (cur : Str) (o : CppOptimizer) (called : List Str) :
    (recordCalls cur o called).usedFunctions = o.usedFunctions := by
  rw [recordCalls_eq]

@[simp] theorem recordCalls_definedFunctions (cur : Str) (o : CppOptimizer) (called : List Str) :
    (recordCalls cur o called).definedFunctions = o.definedFunctions := by
  rw [recordCalls_eq]

@[simp] theorem recordCalls_usedVariables (cur : Str) (o : CppOptimizer) (called : List Str) :
    (recordCalls cur o called).usedVariables = o.usedVariables := by
  rw [recordCalls_eq]

@[simp] theorem recordCalls_definedVariables (cur : Str) (o : CppOptimizer) (called : List Str) :
    (recordCalls cur o called).definedVariables = o.definedVariables := by
  rw [recordCalls_eq]

@[simp] theorem recordCalls_lines (cur : Str) (o : CppOptimizer) (called : List Str) :
    (recordCalls cur o called).lines = o.lines := by
  rw [recordCalls_eq]

@[simp] theorem recordCalls_keepFunctions (cur : Str) (o : CppOptimizer) (called : List Str) :
    (recordCalls cur o called).keepFunctions = o.keepFunctions := by
  rw [recordCalls_eq]

@[simp] theorem recordCalls_inGlobalScope (cur : Str) (o : CppOptimizer) (called : List Str) :
    (recordCalls cur o called).inGlobalScope = o.inGlobalScope := by
  rw [recordCalls_eq]

@[simp] theorem recordCalls_currentBraceLevel (cur : Str) (o : CppOptimizer) (called : List Str) :
    (recordCalls cur o called).currentBraceLevel = o.currentBraceLevel := by
  rw [recordCalls_eq]

@[simp] theorem recordUses_usedFunctions (o : CppOptimizer) (names : List Str) :
    (recordUses o names).usedFunctions = o.usedFunctions := by
  rw [recordUses_eq]

@[simp] theorem recordUses_definedFunctions (o : CppOptimizer) (names : List Str) :
    (recordUses o names).definedFunctions = o.definedFunctions := by
  rw [recordUses_eq]

@[simp] theorem recordUses_functionCalls (o : CppOptimizer) (names : List Str) :
    (recordUses o names).functionCalls = o.functionCalls := by
  rw [recordUses_eq]

@[simp] theorem recordUses_definedVariables (o : CppOptimizer) (names : List Str) :
    (recordUses o names).definedVariables = o.definedVariables := by
  rw [recordUses_eq]

@[simp] theorem recordUses_lines (o : CppOptimizer) (names : List Str) :
    (recordUses o names).lines = o.lines := by
  rw [recordUses_eq]

@[simp] theorem recordUses_keepFunctions (o : CppOptimizer) (names : List Str) :
    (recordUses o names).keepFunctions = o.keepFunctions := by
  rw [recordUses_eq]

@[simp] theorem recordUses_inGlobalScope (o : CppOptimizer) (names : List Str) :
    (recordUses o names).inGlobalScope = o.inGlobalScope := by
  rw [recordUses_eq]

@[simp] theorem recordUses_currentBraceLevel (o : CppOptimizer) (names : List Str) :
    (recordUses o names).currentBraceLevel = o.currentBraceLevel := by
  rw [recordUses_eq]

theorem analyzeLine_snd (s : CppOptimizer × Str) (line : Str) :
    (analyzeLine s line).2 =
      match funcDefName (stripComments line) with
      | some f => f
      | none => s.2 := by
  unfold analyzeLine
  rcases Option.eq_none_or_eq_some (funcDefName (stripComments line)) with hf | ⟨f, hf⟩
  · simp [hf]
  · simp [hf]

theorem analyzeLine_definedFunctions (s : CppOptimizer × Str) (line : Str) :
    (analyzeLine s line).1.definedFunctions =
      match funcDefName (stripComments line) with
      | some f => s.1.definedFunctions.insert f
      | none => s.1.definedFunctions := by
  unfold analyzeLine
  rcases Option.eq_none_or_eq_some (funcDefName (stripComments line)) with hf | ⟨f, hf⟩ <;>
  rcases Option.eq_none_or_eq_some (varDefName (stripComments line)) with hv | ⟨v, hv⟩ <;>
  simp only [hf, hv] <;> split <;> simp

theorem analyzeLine_currentBraceLevel (s : CppOptimizer × Str) (line : Str) :
    (analyzeLine s line).1.currentBraceLevel =
      addBraces s.1.currentBraceLevel (countChar '{' (stripComments line))
        (countChar '}' (stripComments line)) := by
  unfold analyzeLine
  rcases Option.eq_none_or_eq_some (funcDefName (stripComments line)) with hf | ⟨f, hf⟩ <;>
  rcases Option.eq_none_or_eq_some (varDefName (stripComments line)) with hv | ⟨v, hv⟩ <;>
  simp only [hf, hv] <;> split <;> simp

theorem analyzeLine_inGlobalScope (s : CppOptimizer × Str) (line : Str) :
    (analyzeLine s line).1.inGlobalScope =
      (addBraces s.1.currentBraceLevel (countChar '{' (stripComments line))
        (countChar '}' (stripComments line)) == 0) := by
  unfold analyzeLine
  rcases Option.eq_none_or_eq_some (funcDefName (stripComments line)) with hf | ⟨f, hf⟩ <;>
  rcases Option.eq_none_or_eq_some (varDefName (stripComments line)) with hv | ⟨v, hv⟩ <;>
  simp only [hf, hv] <;> split <;> simp

theorem analyzeLine_lines (s : CppOptimizer × Str) (line : Str) :
    (analyzeLine s line).1.lines = s.1.lines := by
  unfold analyzeLine
  rcases Option.eq_none_or_eq_some (funcDefName (stripComments line)) with hf | ⟨f, hf⟩ <;>
  rcases Option.eq_none_or_eq_some (varDefName (stripComments line)) with hv | ⟨v, hv⟩ <;>
  simp only [hf, hv] <;> split <;> simp

theorem analyzeLine_keepFunctions (s : CppOptimizer × Str) (line : Str) :
    (analyzeLine s line).1.keepFunctions = s.1.keepFunctions := by
  unfold analyzeLine
  rcases Option.eq_none_or_eq_some (funcDefName (stripComments line)) with hf | ⟨f, hf⟩ <;>
  rcases Option.eq_none_or_eq_some (varDefName (stripComments line)) with hv | ⟨v, hv⟩ <;>
  simp only [hf, hv] <;> split <;> simp

theorem analyzeLine_usedFunctions (s : CppOptimizer × Str) (line : Str) :
    (analyzeLine s line).1.usedFunctions = s.1.usedFunctions := by
  unfold analyzeLine
  rcases Option.eq_none_or_eq_some (funcDefName (stripComments line)) with hf | ⟨f, hf⟩ <;>
  rcases Option.eq_none_or_eq_some (varDefName (stripComments line)) with hv | ⟨v, hv⟩ <;>
  simp only [hf, hv] <;> split <;> simp

theorem analyzeLine_graphInv (s : CppOptimizer × Str) (line : Str)
    (hinv : GraphInv s.1) (hcur : s.2 ≠ [] → s.2 ∈ s.1.definedFunctions) :
    GraphInv (analyzeLine s line).1 ∧
      ((analyzeLine s line).2 ≠ [] → (analyzeLine s line).2 ∈ (analyzeLine s line).1.definedFunctions) := by
  have key : ∀ (o : CppOptimizer) (cur : Str) (called : List Str), GraphInv o →
      (cur ≠ [] → cur ∈ o.definedFunctions) →
      ∀ o4 : CppOptimizer, o4.functionCalls = (recordCalls cur o called).functionCalls →
        o4.definedFunctions = o.definedFunctions → GraphInv o4 := by
    intro o cur called h1 h2 o4 e1 e2
    have := recordCalls_graphInv cur called o h1 h2
    intro e he
    rw [e1] at he
    have h3 := this e he
    rw [recordCalls_definedFunctions] at h3
    rw [e2]
    exact h3
  constructor
  · unfold analyzeLine
    rcases Option.eq_none_or_eq_some (funcDefName (stripComments line)) with hf | ⟨f, hf⟩
    · have hinv1 : GraphInv
          { s.1 with
            currentBraceLevel := addBraces s.1.currentBraceLevel
              (countChar '{' (stripComments line)) (countChar '}' (stripComments line)),
            inGlobalScope := addBraces s.1.currentBraceLevel
              (countChar '{' (stripComments line)) (countChar '}' (stripComments line)) == 0 } :=
        hinv
      rcases Option.eq_none_or_eq_some (varDefName (stripComments line)) with hv | ⟨v, hv⟩ <;>
      simp only [hf, hv] <;> split <;>
      exact key _ s.2 (funcCallNames (stripComments line)) hinv1 hcur _ (by simp) (by simp)
    · have hinv2 : GraphInv
          { s.1 with
            currentBraceLevel := addBraces s.1.currentBraceLevel
              (countChar '{' (stripComments line)) (countChar '}' (stripComments line)),
            inGlobalScope := addBraces s.1.currentBraceLevel
              (countChar '{' (stripComments line)) (countChar '}' (stripComments line)) == 0,
            definedFunctions := s.1.definedFunctions.insert f,
            functionCalls := mapAssign s.1.functionCalls f [] } := by
        intro e he
        rcases mem_mapAssign he with he | he
        · exact ⟨List.mem_insert_of_mem (hinv e he).1,
            fun g hg => List.mem_insert_of_mem ((hinv e he).2 g hg)⟩
        · subst he
          exact ⟨List.mem_insert_self _ _, fun g hg => by simp at hg⟩
      rcases Option.eq_none_or_eq_some (varDefName (stripComments line)) with hv | ⟨v, hv⟩ <;>
      simp only [hf, hv] <;> split <;>
      exact key _ f (funcCallNames (stripComments line)) hinv2
        (fun _ => List.mem_insert_self _ _) _ (by simp) (by simp)
  · rw [analyzeLine_snd, analyzeLine_definedFunctions]
    rcases Option.eq_none_or_eq_some (funcDefName (stripComments line)) with hf | ⟨f, hf⟩
    · simp only [hf]; exact hcur
    · simp only [hf]; exact fun _ => List.mem_insert_self _ _

theorem analyzeLine_usedVariables_mono (s : CppOptimizer × Str) (line v : Str)
    (h : v ∈ s.1.usedVariables) : v ∈ (analyzeLine s line).1.usedVariables := by
  unfold analyzeLine
  rcases Option.eq_none_or_eq_some (funcDefName (stripComments line)) with hf | ⟨f, hf⟩ <;>
  rcases Option.eq_none_or_eq_some (varDefName (stripComments line)) with hv | ⟨w, hv⟩ <;>
  simp only [hf, hv] <;> split <;> simp [mem_recordUses, h] <;> split <;> simp [h]

theorem analyzeLine_usedVariables_local (s : CppOptimizer × Str) (line v : Str)
    (hv : varDefName (stripComments line) = some v)
    (hl : addBraces s.1.currentBraceLevel (countChar '{' (stripComments line))
      (countChar '}' (stripComments line)) ≠ 0) :
    v ∈ (analyzeLine s line).1.usedVariables := by
  unfold analyzeLine
  rcases Option.eq_none_or_eq_some (funcDefName (stripComments line)) with hf | ⟨f, hf⟩ <;>
  simp only [hf, hv] <;> split <;> simp [mem_recordUses, hl]

theorem analyzeLine_usedVariables_origin (s : CppOptimizer × Str) (line v : Str)
    (h : v ∈ (analyzeLine s line).1.usedVariables) :
    v ∈ s.1.usedVariables ∨
      (addBraces s.1.currentBraceLevel (countChar '{' (stripComments line))
          (countChar '}' (stripComments line)) ≠ 0 ∧
        (varDefName (stripComments line) = some v ∨ v ∈ varUseNames (stripComments line))) := by
  by_cases hl : addBraces s.1.currentBraceLevel (countChar '{' (stripComments line))
      (countChar '}' (stripComments line)) = 0
  · left
    revert h
    unfold analyzeLine
    rcases Option.eq_none_or_eq_some (funcDefName (stripComments line)) with hf | ⟨f, hf⟩ <;>
    rcases Option.eq_none_or_eq_some (varDefName (stripComments line)) with hv | ⟨w, hv⟩ <;>
    simp [hf, hv, hl]
  · revert h
    unfold analyzeLine
    rcases Option.eq_none_or_eq_some (funcDefName (stripComments line)) with hf | ⟨f, hf⟩ <;>
    rcases Option.eq_none_or_eq_some (varDefName (stripComments line)) with hv | ⟨w, hv⟩ <;>
    simp only [hf, hv] <;> split <;> simp [mem_recordUses, hl] <;> tauto

theorem scan_usedVariables_mono (ls : List Str) (s : CppOptimizer × Str) (v : Str)
    (h : v ∈ s.1.usedVariables) : v ∈ (ls.foldl analyzeLine s).1.usedVariables := by
  induction ls generalizing s with
  | nil => exact h
  | cons l ls ih =>
    rw [List.foldl_cons]
    exact ih _ (analyzeLine_usedVariables_mono s l v h)

theorem scan_usedVariables_local (ls : List Str) (s : CppOptimizer × Str) (p : Int × Str)
    (hp : p ∈ linesWithLevel s.1.currentBraceLevel ls) (hl : p.1 ≠ 0) (v : Str)
    (hv : varDefName (stripComments p.2) = some v) :
    v ∈ (ls.foldl analyzeLine s).1.usedVariables := by
  induction ls generalizing s with
  | nil => simp [linesWithLevel] at hp
  | cons l ls ih =>
    rw [List.foldl_cons]
    simp only [linesWithLevel, List.mem_cons] at hp
    rcases hp with rfl | hp
    · exact scan_usedVariables_mono _ _ _ (analyzeLine_usedVariables_local s l v hv hl)
    · apply ih
      rw [analyzeLine_currentBraceLevel]
      exact hp

theorem scan_usedVariables_origin (ls : List Str) (s : CppOptimizer × Str) (v : Str)
    (h : v ∈ (ls.foldl analyzeLine s).1.usedVariables) :
    v ∈ s.1.usedVariables ∨ ∃ p ∈ linesWithLevel s.1.currentBraceLevel ls, p.1 ≠ 0 ∧
      (varDefName (stripComments p.2) = some v ∨ v ∈ varUseNames (stripComments p.2)) := by
  induction ls generalizing s with
  | nil => exact Or.inl h
  | cons l ls ih =>
    rw [List.foldl_cons] at h
    rcases ih _ h with h1 | ⟨p, hp, h2⟩
    · rcases analyzeLine_usedVariables_origin s l v h1 with h3 | h3
      · exact Or.inl h3
      · exact Or.inr ⟨(_, l), by rw [linesWithLevel]; exact List.mem_cons_self _ _, h3⟩
    · rw [analyzeLine_currentBraceLevel] at hp
      exact Or.inr ⟨p, by simp only [linesWithLevel, List.mem_cons]; exact Or.inr hp, h2⟩

theorem linesWithLevel_getElem? (ls : List Str) (level : Int) (j : Nat) (p : Int × Str)
    (h : (linesWithLevel level ls)[j]? = some p) : ls[j]? = some p.2 := by
  induction ls generalizing level j with
  | nil => simp [linesWithLevel] at h
  | cons l ls ih =>
    cases j with
    | zero =>
      simp only [linesWithLevel, List.getElem?_cons_zero, Option.some.injEq] at h
      subst h
      simp
    | succ j =>
      simp only [linesWithLevel, List.getElem?_cons_succ] at h
      simpa using ih _ _ h

theorem scan_graphInv (ls : List Str) :
    ∀ s : CppOptimizer × Str, GraphInv s.1 → (s.2 ≠ [] → s.2 ∈ s.1.definedFunctions) →
      GraphInv (ls.foldl analyzeLine s).1 := by
  induction ls with
  | nil => intro s h _; exact h
  | cons l ls ih =>
    intro s h1 h2
    rw [List.foldl_cons]
    obtain ⟨h3, h4⟩ := analyzeLine_graphInv s l h1 h2
    exact ih _ h3 h4

theorem scan_usedFunctions (ls : List Str) (s : CppOptimizer × Str) :
    (ls.foldl analyzeLine s).1.usedFunctions = s.1.usedFunctions := by
  induction ls generalizing s with
  | nil => rfl
  | cons l ls ih => rw [List.foldl_cons, ih, analyzeLine_usedFunctions]

theorem scan_lines (ls : List Str) (s : CppOptimizer × Str) :
    (ls.foldl analyzeLine s).1.lines = s.1.lines := by
  induction ls generalizing s with
  | nil => rfl
  | cons l ls ih => rw [List.foldl_cons, ih, analyzeLine_lines]

theorem scan_keepFunctions (ls : List Str) (s : CppOptimizer × Str) :
    (ls.foldl analyzeLine s).1.keepFunctions = s.1.keepFunctions := by
  induction ls generalizing s with
  | nil => rfl
  | cons l ls ih => rw [List.foldl_cons, ih, analyzeLine_keepFunctions]

theorem scan_defined_origin (ls : List Str) (s : CppOptimizer × Str) (f : Str)
    (hf : f ∈ (ls.foldl analyzeLine s).1.definedFunctions) :
    f ∈ s.1.definedFunctions ∨ ∃ l ∈ ls, funcDefName (stripComments l) = some f := by
  induction ls generalizing s with
  | nil => exact Or.inl hf
  | cons l ls ih =>
    rw [List.foldl_cons] at hf
    rcases ih _ hf with h | ⟨l', hl', h⟩
    · rw [analyzeLine_definedFunctions] at h
      rcases Option.eq_none_or_eq_some (funcDefName (stripComments l)) with hn | ⟨g, hn⟩
      · simp only [hn] at h
        exact Or.inl h
      · simp only [hn] at h
        rcases List.mem_insert_iff.mp h with rfl | h
        · exact Or.inr ⟨l, List.mem_cons_self _ _, hn⟩
        · exact Or.inl h
    · exact Or.inr ⟨l', List.mem_cons_of_mem _ hl', h⟩

/-- The method `analyze` on an optimizer whose `usedFunctions` is empty and
whose call graph is well formed: it returns, and the marking is the result of
the traversal from `main` over the graph the scan built. -/
theorem analyze_spec (o : CppOptimizer) (hused : o.usedFunctions = []) (hinv : GraphInv o) :
    ∃ o', analyze o = some o' ∧ DfsPost (analyzeScan o).1 mainName o' ∧
      GraphInv (analyzeScan o).1 ∧ (analyzeScan o).1.usedFunctions = [] ∧
      (analyzeScan o).1.lines = o.lines ∧ (analyzeScan o).1.keepFunctions = o.keepFunctions := by
  obtain ⟨o', he, hpost⟩ := findUsedFunctions_spec (analyzeScan o).1 mainName
  refine ⟨o', he, hpost, ?_, ?_, ?_, ?_⟩
  · exact scan_graphInv o.lines (o, []) hinv (fun h => absurd rfl h)
  · unfold analyzeScan
    rw [scan_usedFunctions]
    exact hused
  · exact scan_lines _ _
  · exact scan_keepFunctions _ _

theorem loadCode_fresh_usedFunctions (t : Str) : (loadCode fresh t).usedFunctions = [] := by
  rw [loadCode_eq]; rfl

theorem loadCode_fresh_graphInv (t : Str) : GraphInv (loadCode fresh t) := by
  intro e he
  rw [loadCode_eq] at he
  simp [fresh] at he

/-! ## Lemmas: `getline` -/

theorem splitOn_getLines (s : Str) :
    s.splitOn '\n' = getLines s ∨ s.splitOn '\n' = getLines s ++ [[]] := by
  unfold List.splitOn
  induction s with
  | nil => right; rfl
  | cons c cs ih =>
    rw [List.splitOnP_cons]
    by_cases hc : c = '\n'
    · subst hc
      simp only [getLines, beq_self_eq_true, if_true]
      rcases ih with h | h
      · left; rw [h]
      · right; rw [h]; rfl
    · have hb : (c == '\n') = false := by simpa using hc
      simp only [getLines, hb, hc, if_false]
      cases hg : getLines cs with
      | nil =>
        rw [hg] at ih
        rcases ih with h | h
        · exact absurd h (List.splitOnP_ne_nil _ _)
        · left; rw [h]; rfl
      | cons l ls =>
        rw [hg] at ih
        rcases ih with h | h
        · left; rw [h]; rfl
        · right; rw [h]; rfl

/-! ## The claims -/

/-- C1. On the example of the spec, `int helper(){return 1;}`,
`int unused(){return 2;}`, `int main(){return helper();}`, the analysis marks
both `main` and `helper` as live, and `optimize` returns the `helper` line
alone: `skipFunction`, called on the one-line function `unused`, starts its
balance at 1 and runs over the `main` line to the end of the input. -/
theorem example_helper_unused_main :
    (optimizeCode fresh
        "int helper(){return 1;}\nint unused(){return 2;}\nint main(){return helper();}".data).map
      (fun r => (r.1.usedFunctions, r.1.keepFunctions, r.1.lines)) =
    some (["helper".data, "main".data], ["main".data], ["int helper(){return 1;}".data]) := by
  decide

/-- C2. From every state, `optimize` returns and the lines it leaves are a
subsequence of the lines it started from: original lines, text unchanged, in
their original order, none emitted twice. -/
theorem optimize_lines_sublist (o : CppOptimizer) :
    ∃ o', optimize o = some o' ∧ o'.lines.Sublist o.lines := by
  obtain ⟨o', he, hs, _⟩ := optimize_spec o
  exact ⟨o', he, hs⟩

/-- C3. For every input text, after `loadCode`, `analyze` and `optimize` on a
fresh optimizer, every line of the output in which `funcDefRegex` is found
(after comment stripping) names a function in `usedFunctions` or in
`keepFunctions`, which is `{main}`. -/
theorem optimize_output_headers_live (t : Str) :
    ∃ o2 o3, analyze (loadCode fresh t) = some o2 ∧ optimize o2 = some o3 ∧
      o3.usedFunctions = o2.usedFunctions ∧ o2.keepFunctions = [mainName] ∧
      ∀ l ∈ o3.lines, ∀ name, funcDefName (stripComments l) = some name →
        name ∈ o2.usedFunctions ∨ name ∈ o2.keepFunctions := by
  obtain ⟨o2, he2, hpost, _, _, _, hkeep⟩ :=
    analyze_spec (loadCode fresh t) (loadCode_fresh_usedFunctions t) (loadCode_fresh_graphInv t)
  obtain ⟨o3, he3, _, hem, _, hu, _⟩ := optimize_spec o2
  refine ⟨o2, o3, he2, he3, hu, ?_, ?_⟩
  · rw [hpost.ext.keep, hkeep, loadCode_eq]; rfl
  · intro l hl name hname
    have h := (hem l hl).2
    simp only [emitted, hname, decide_eq_true_eq] at h
    exact h

/-- C4. For every input text, after `loadCode` and `analyze` on a fresh
optimizer, every name in `usedFunctions` is in `definedFunctions` and is
`main` or is reached from `main` by a chain of edges of `functionCalls`. -/
theorem analyze_live_defined_reachable (t : Str) :
    ∃ o', analyze (loadCode fresh t) = some o' ∧
      ∀ f ∈ o'.usedFunctions, f ∈ o'.definedFunctions ∧
        (f = mainName ∨ Relation.TransGen (callsEdge o') mainName f) := by
  obtain ⟨o', he, hpost, _, hused, _, _⟩ :=
    analyze_spec (loadCode fresh t) (loadCode_fresh_usedFunctions t) (loadCode_fresh_graphInv t)
  refine ⟨o', he, ?_⟩
  intro f hf
  have hn : f ∉ (analyzeScan (loadCode fresh t)).1.usedFunctions := by
    rw [hused]; simp
  refine ⟨?_, ?_⟩
  · rw [hpost.ext.defined]
    exact hpost.ext.usedNew f hf hn
  · have h := Relation.ReflTransGen.mono
      (fun a b h => (callsEdge_congr hpost.ext a b).mpr h) (hpost.reach f hf hn)
    exact Relation.reflTransGen_iff_eq_or_transGen.mp h

/-- C5. For every input text, after `loadCode` and `analyze` on a fresh
optimizer, `usedFunctions` is closed under the recorded calls: every name in
the call list of a live function is live, hence so is every name reached from
a live function by a chain of edges, and `main` is live when it is defined. -/
theorem analyze_live_closed (t : Str) :
    ∃ o', analyze (loadCode fresh t) = some o' ∧
      (∀ f ∈ o'.usedFunctions, ∀ g ∈ mapGet o'.functionCalls f, g ∈ o'.usedFunctions) ∧
      (∀ f ∈ o'.usedFunctions, ∀ g, Relation.ReflTransGen (callsEdge o') f g →
        g ∈ o'.usedFunctions) ∧
      (mainName ∈ o'.definedFunctions → mainName ∈ o'.usedFunctions) := by
  obtain ⟨o', he, hpost, hinv, hused, _, _⟩ :=
    analyze_spec (loadCode fresh t) (loadCode_fresh_usedFunctions t) (loadCode_fresh_graphInv t)
  have hclosed : ∀ f ∈ o'.usedFunctions, ∀ g, callsEdge o' f g → g ∈ o'.usedFunctions := by
    intro f hf g hg
    have hn : f ∉ (analyzeScan (loadCode fresh t)).1.usedFunctions := by
      rw [hused]; simp
    have hg' := (callsEdge_congr hpost.ext f g).mp hg
    obtain ⟨v, hm, hgv⟩ := mapGet_mem hg'
    exact hpost.closed f hf hn g hg' ((hinv _ hm).2 g hgv)
  refine ⟨o', he, fun f hf g hg => hclosed f hf g hg, ?_, ?_⟩
  · intro f hf g hreach
    induction hreach with
    | refl => exact hf
    | tail _ hstep ih => exact hclosed _ ih _ hstep
  · intro hd
    exact hpost.root (by rw [← hpost.ext.defined]; exact hd)

/-- C6. For every input text, after `loadCode` and `analyze` on a fresh
optimizer, every key of `functionCalls` and every name in a call list is in
`definedFunctions`, and a name that `funcDefRegex` captures on no line is
neither in `definedFunctions`, nor a key, nor in any call list. -/
theorem analyze_graph_defined_only (t : Str) :
    ∃ o', analyze (loadCode fresh t) = some o' ∧
      (∀ k ∈ mapKeys o'.functionCalls, k ∈ o'.definedFunctions) ∧
      (∀ e ∈ o'.functionCalls, ∀ g ∈ e.2, g ∈ o'.definedFunctions) ∧
      ∀ name, (∀ l ∈ (loadCode fresh t).lines, funcDefName (stripComments l) ≠ some name) →
        name ∉ o'.definedFunctions ∧ name ∉ mapKeys o'.functionCalls ∧
          ∀ e ∈ o'.functionCalls, name ∉ e.2 := by
  obtain ⟨o', he, hpost, hinv, _, _, _⟩ :=
    analyze_spec (loadCode fresh t) (loadCode_fresh_usedFunctions t) (loadCode_fresh_graphInv t)
  have hinv' : GraphInv o' := by
    intro e hm
    rw [hpost.ext.defined]
    rcases hpost.ext.entries e hm with h | ⟨h1, h2⟩
    · exact hinv e h
    · exact ⟨h1, fun g hg => by rw [h2] at hg; simp at hg⟩
  have hkeys : ∀ k ∈ mapKeys o'.functionCalls, k ∈ o'.definedFunctions := by
    intro k hk
    obtain ⟨e, hm, rfl⟩ := List.mem_map.mp hk
    exact (hinv' e hm).1
  have hvals : ∀ e ∈ o'.functionCalls, ∀ g ∈ e.2, g ∈ o'.definedFunctions :=
    fun e hm => (hinv' e hm).2
  refine ⟨o', he, hkeys, hvals, ?_⟩
  intro name hname
  have hnd : name ∉ o'.definedFunctions := by
    intro hd
    rw [hpost.ext.defined] at hd
    rcases scan_defined_origin _ _ name hd with h | ⟨l, hl, h⟩
    · rw [loadCode_eq] at h
      simp [fresh] at h
    · exact hname l hl h
  exact ⟨hnd, fun hk => hnd (hkeys name hk), fun e hm hg => hnd (hvals e hm name hg)⟩

/-- C7, the statement of the claim refuted: a line made of one NUL character
has a comment-stripped content that is neither empty nor all whitespace, and
`loadCode` discards it. -/
theorem loadCode_discards_nul_line :
    isBlankLine ['\x00'] = false ∧ (loadCode fresh ['\x00']).lines = [] ∧
      (loadCode fresh ['\x00']).lines ≠
        (List.splitOn '\n' ['\x00']).filter (fun l => !isBlankLine l) := by
  decide

/-- C7, amended. On a fresh optimizer `loadCode` stores exactly the physical
lines of the text (the text split at every `'\n'`), in order and unchanged,
whose comment-stripped content has a character that is neither whitespace nor
NUL; the empty text gives the empty sequence. -/
theorem loadCode_lines (t : Str) :
    (loadCode fresh t).lines = (t.splitOn '\n').filter (fun l => !isWhitespaceOrComment l) ∧
      (loadCode fresh []).lines = [] ∧
      ∀ l, isWhitespaceOrComment l = true ↔
        ∀ c ∈ stripComments l, isSpace c = true ∨ c = '\x00' := by
  refine ⟨?_, rfl, ?_⟩
  · rw [loadCode_eq]
    show [] ++ _ = _
    rw [List.nil_append]
    rcases splitOn_getLines t with h | h
    · rw [h]
    · rw [h, List.filter_append]
      have : List.filter (fun l => !isWhitespaceOrComment l) [([] : Str)] = [] := by decide
      rw [this, List.append_nil]
  · intro l
    simp [isWhitespaceOrComment, List.all_eq_true]

/-- C8. The method `loadCode` appends to the lines already stored, and nothing
resets the optimizer between two runs: after `optimizeCode` on
`int main(){return 0;}`, a second `optimizeCode` on the same optimizer with
the text `int x;` returns the `main` line of the first text, whereas a fresh
optimizer returns the empty text for `int x;`. -/
theorem optimizeCode_twice_keeps_first_text :
    (∀ (o : CppOptimizer) (t : Str), (loadCode o t).lines = o.lines ++ (loadCode fresh t).lines) ∧
    ((optimizeCode fresh "int main(){return 0;}".data).bind
        (fun r => (optimizeCode r.1 "int x;".data).map (fun r2 => r2.2)) =
      some "int main(){return 0;}\n".data) ∧
    (optimizeCode fresh "int x;".data).map (fun r => r.2) = some [] := by
  refine ⟨?_, by decide, by decide⟩
  intro o t
  rw [loadCode_eq, loadCode_eq]
  rfl

/-- C9, the statement of the claim refuted. In the text `int x;`,
`int main(){`, `int x = 1;`, `return 0;`, `}` (in the strings below the braces
are written `\x7b` and `\x7d`) the first line is a variable-definition line
scanned at brace depth 0, its name `x` is a call-like identifier of no line,
and the line `int x;` is in the output: the name is marked used by the
declaration inside `main`. Likewise, in the example of the spec the line
`int main(){return 0;}` is scanned at depth 0, `varDefRegex` finds the name `0`
in it (`return 0;`), no line has that name as a call-like identifier, and the
line is in the output: `optimize` tests the function header first. -/
theorem global_declaration_kept_by_local_namesake :
    (varDefName (stripComments "int x;".data) = some "x".data ∧
      (linesWithLevel 0
          (loadCode fresh "int x;\nint main()\x7b\nint x = 1;\nreturn 0;\n\x7d".data).lines)[0]? =
        some (0, "int x;".data) ∧
      (∀ p ∈ linesWithLevel 0
          (loadCode fresh "int x;\nint main()\x7b\nint x = 1;\nreturn 0;\n\x7d".data).lines,
        "x".data ∉ varUseNames (stripComments p.2)) ∧
      (optimizeCode fresh "int x;\nint main()\x7b\nint x = 1;\nreturn 0;\n\x7d".data).map
          (fun r => r.1.lines) =
        some ["int x;".data, "int main()\x7b".data, "int x = 1;".data, "return 0;".data,
          "\x7d".data]) ∧
    (varDefName (stripComments "int main(){return 0;}".data) = some "0".data ∧
      linesWithLevel 0 (loadCode fresh "int x;\nint main(){return 0;}".data).lines =
        [(0, "int x;".data), (0, "int main(){return 0;}".data)] ∧
      (∀ p ∈ linesWithLevel 0 (loadCode fresh "int x;\nint main(){return 0;}".data).lines,
        "0".data ∉ varUseNames (stripComments p.2)) ∧
      (optimizeCode fresh "int x;\nint main(){return 0;}".data).map (fun r => r.1.lines) =
        some ["int main(){return 0;}".data]) := by
  decide

/-- C9, amended. For every input text, a line in which `funcDefRegex` is not
found and `varDefRegex` is found with a name `v`, such that no line scanned at
non-zero brace depth declares `v` (by `varDefRegex`) or has `v` as a call-like
identifier (by `varUseRegex`), is absent from the output of `loadCode`,
`analyze`, `optimize` on a fresh optimizer. -/
theorem unused_global_variable_removed (t line v : Str)
    (hfun : funcDefName (stripComments line) = none)
    (hvar : varDefName (stripComments line) = some v)
    (hnever : ∀ p ∈ linesWithLevel 0 (loadCode fresh t).lines, p.1 ≠ 0 →
      varDefName (stripComments p.2) ≠ some v ∧ v ∉ varUseNames (stripComments p.2)) :
    ∃ o2 o3, analyze (loadCode fresh t) = some o2 ∧ optimize o2 = some o3 ∧
      v ∉ o2.usedVariables ∧ line ∉ o3.lines := by
  obtain ⟨o2, he2, hpost⟩ := findUsedFunctions_spec (analyzeScan (loadCode fresh t)).1 mainName
  obtain ⟨o3, he3, _, hem, _⟩ := optimize_spec o2
  have hv : v ∉ o2.usedVariables := by
    rw [hpost.ext.usedVars]
    intro hc
    rcases scan_usedVariables_origin _ _ v hc with h | ⟨p, hp, hl, h⟩
    · rw [loadCode_eq] at h
      simp [fresh] at h
    · have hp' : p ∈ linesWithLevel 0 (loadCode fresh t).lines := by
        have h0 : (loadCode fresh t).currentBraceLevel = 0 := by rw [loadCode_eq]; rfl
        rw [← h0]; exact hp
      obtain ⟨h1, h2⟩ := hnever p hp' hl
      rcases h with h | h
      · exact h1 h
      · exact h2 h
  refine ⟨o2, o3, he2, he3, hv, ?_⟩
  intro hc
  have h := (hem line hc).2
  simp only [emitted, hfun, hvar, decide_eq_true_eq] at h
  exact hv h

/-- C9, the example of the spec: for `int x;`, `int main(){return 0;}` the
line `int x;` is dropped and the `main` line is kept unchanged. -/
theorem unused_global_variable_removed_witness :
    funcDefName (stripComments "int x;".data) = none ∧
    varDefName (stripComments "int x;".data) = some "x".data ∧
    (∃ o2 o3, analyze (loadCode fresh "int x;\nint main(){return 0;}".data) = some o2 ∧
      optimize o2 = some o3 ∧ "x".data ∉ o2.usedVariables ∧ "int x;".data ∉ o3.lines) ∧
    (optimizeCode fresh "int x;\nint main(){return 0;}".data).map (fun r => r.1.lines) =
      some ["int main(){return 0;}".data] :=
  ⟨by decide, by decide,
    unused_global_variable_removed "int x;\nint main(){return 0;}".data "int x;".data "x".data
      (by decide) (by decide) (by decide),
    by decide⟩

/-- C10. From every state, `analyze` and `optimize` return, and every line
that `analyze` scans at non-zero brace depth and in which `varDefRegex` is
found has its variable name in `usedVariables` afterwards; such a line is in
the output of `optimize` whenever the loop of `optimize` examines it (it is
not inside a skipped function) and does not recognize it as a function
header. -/
theorem local_declaration_retained (o : CppOptimizer) :
    ∃ o2 o3, analyze o = some o2 ∧ optimize o2 = some o3 ∧ o2.lines = o.lines ∧
      ∀ (j : Nat) (d : Int) (l v : Str),
        (linesWithLevel o.currentBraceLevel o.lines)[j]? = some (d, l) → d ≠ 0 →
        varDefName (stripComments l) = some v →
          v ∈ o2.usedVariables ∧
          (Examined o2 j → funcDefName (stripComments l) = none → l ∈ o3.lines) := by
  obtain ⟨o2, he2, hpost⟩ := findUsedFunctions_spec (analyzeScan o).1 mainName
  obtain ⟨o3, he3, _, _, hex, _⟩ := optimize_spec o2
  have hlines : o2.lines = o.lines := by
    rw [hpost.ext.lines]; exact scan_lines _ _
  refine ⟨o2, o3, he2, he3, hlines, ?_⟩
  intro j d l v hj hd hv
  have hused : v ∈ o2.usedVariables := by
    rw [hpost.ext.usedVars]
    exact scan_usedVariables_local o.lines (o, []) (d, l) (List.getElem?_mem hj) hd v hv
  refine ⟨hused, ?_⟩
  intro hexam hfun
  apply hex j l hexam
  · rw [hlines]
    exact linesWithLevel_getElem? _ _ _ _ hj
  · simp only [emitted, hfun, hv, decide_eq_true_eq]
    exact hused

/-! ## Lemmas: the output of `optimize` -/

theorem optimizeLoop_output (o : CppOptimizer) :
    ∀ (fuel i : Nat) (a : OptState), o.lines.length ≤ i + fuel →
      ∃ a', optimizeLoop o fuel i a = some a' ∧
        a'.optimizedLines =
          a.optimizedLines ++ (examinedFrom o fuel i).filterMap (keptLine o) := by
  intro fuel
  induction fuel with
  | zero =>
    intro i a h
    have hi : ¬ i < o.lines.length := by omega
    exact ⟨a, by simp [optimizeLoop, hi], by simp [examinedFrom]⟩
  | succ fuel ih =>
    intro i a h
    rw [optimizeLoop_succ]
    cases hl : o.lines[i]? with
    | none =>
      have hi : ¬ i < o.lines.length := by
        intro h1
        rw [List.getElem?_eq_getElem h1] at hl
        cases hl
      exact ⟨a, rfl, by simp [examinedFrom, hi]⟩
    | some line =>
      obtain ⟨hlt, _⟩ := List.getElem?_eq_some_iff.mp hl
      have hnext := nextIndex_gt o i
      obtain ⟨a', he, hout⟩ := ih (nextIndex o i) (optStep o a line) (by omega)
      refine ⟨a', he, ?_⟩
      rw [hout, optStep_lines]
      simp only [examinedFrom, hlt, if_true, List.filterMap_cons, keptLine, hl]
      by_cases hem : emitted o line = true
      · simp [hem]
      · simp [hem]

theorem examinedFrom_sound (o : CppOptimizer) :
    ∀ (fuel i j : Nat), j ∈ examinedFrom o fuel i →
      (∃ k, (nextIndex o)^[k] i = j) ∧ j < o.lines.length := by
  intro fuel
  induction fuel with
  | zero => intro i j h; simp [examinedFrom] at h
  | succ fuel ih =>
    intro i j h
    simp only [examinedFrom] at h
    split at h
    · rename_i hi
      rcases List.mem_cons.mp h with rfl | h
      · exact ⟨⟨0, rfl⟩, hi⟩
      · obtain ⟨⟨k, hk⟩, hj⟩ := ih _ _ h
        exact ⟨⟨k + 1, by rw [Function.iterate_succ_apply]; exact hk⟩, hj⟩
    · simp at h

theorem examinedFrom_complete (o : CppOptimizer) :
    ∀ (k fuel i : Nat), o.lines.length ≤ i + fuel →
      (nextIndex o)^[k] i < o.lines.length → (nextIndex o)^[k] i ∈ examinedFrom o fuel i := by
  intro k
  induction k with
  | zero =>
    intro fuel i h hlt
    simp only [Function.iterate_zero, id_eq] at hlt ⊢
    cases fuel with
    | zero => omega
    | succ fuel => simp [examinedFrom, hlt]
  | succ k ih =>
    intro fuel i h hlt
    rw [Function.iterate_succ_apply] at hlt ⊢
    have h1 := iterate_nextIndex_ge o k (nextIndex o i)
    have h2 := nextIndex_gt o i
    cases fuel with
    | zero => omega
    | succ fuel =>
      have hi : i < o.lines.length := by omega
      simp only [examinedFrom, hi, if_true]
      exact List.mem_cons_of_mem _ (ih fuel (nextIndex o i) (by omega) hlt)

theorem mem_examinedIndices (o : CppOptimizer) (j : Nat) :
    j ∈ examinedIndices o ↔ Examined o j ∧ j < o.lines.length := by
  constructor
  · intro h
    exact examinedFrom_sound o _ _ _ h
  · rintro ⟨⟨k, rfl⟩, hlt⟩
    exact examinedFrom_complete o k _ 0 (by omega) hlt

/-- The output of `optimize`: the lines at the examined indices that `emitted`
accepts, in order. -/
theorem optimize_output (o : CppOptimizer) :
    ∃ o', optimize o = some o' ∧ o'.lines = (examinedIndices o).filterMap (keptLine o) ∧
      o'.usedFunctions = o.usedFunctions ∧ o'.keepFunctions = o.keepFunctions ∧
      o'.usedVariables = o.usedVariables := by
  obtain ⟨a', he, hout⟩ := optimizeLoop_output o o.lines.length 0
    { optimizedLines := [], currentFunction := [], inGlobalScope := true,
      currentBraceLevel := 0 } (by omega)
  refine ⟨{ o with lines := a'.optimizedLines, inGlobalScope := a'.inGlobalScope,
                   currentBraceLevel := a'.currentBraceLevel }, ?_, ?_, rfl, rfl, rfl⟩
  · simp only [optimize, he]
  · simpa [examinedIndices] using hout

/-! ## Lemmas: the text interface -/

theorem getLines_append_newline (l s : Str) (h : '\n' ∉ l) :
    getLines (l ++ '\n' :: s) = l :: getLines s := by
  induction l with
  | nil => simp [getLines]
  | cons c l ih =>
    have hc : c ≠ '\n' := fun hc => h (by simp [hc])
    have hl : '\n' ∉ l := fun hl => h (List.mem_cons_of_mem _ hl)
    have hcons : ∀ cs : Str, getLines (c :: cs) =
        match getLines cs with
        | [] => [[c]]
        | l :: ls => (c :: l) :: ls := fun cs => by simp only [getLines, hc, if_false]
    rw [List.cons_append, hcons, ih hl]

theorem getLines_text (ls : List Str) (h : ∀ l ∈ ls, '\n' ∉ l) :
    getLines ((ls.map (fun line => line ++ ['\n'])).flatten) = ls := by
  induction ls with
  | nil => rfl
  | cons l ls ih =>
    simp only [List.map_cons, List.flatten_cons, List.append_assoc, List.singleton_append]
    rw [getLines_append_newline l _ (h l (List.mem_cons_self _ _)),
      ih (fun l' hl' => h l' (List.mem_cons_of_mem _ hl'))]

theorem getLines_no_newline (s : Str) : ∀ l ∈ getLines s, '\n' ∉ l := by
  induction s with
  | nil => intro l h; simp [getLines] at h
  | cons c cs ih =>
    intro l h
    simp only [getLines] at h
    split at h
    · rcases List.mem_cons.mp h with rfl | h
      · simp
      · exact ih l h
    · rename_i hc
      split at h
      · simp only [List.mem_singleton] at h
        subst h
        simpa using Ne.symm hc
      · rename_i l' ls' hg
        rcases List.mem_cons.mp h with rfl | h
        · have := ih l' (by rw [hg]; exact List.mem_cons_self _ _)
          simp only [List.mem_cons, not_or]
          exact ⟨Ne.symm hc, this⟩
        · exact ih l (by rw [hg]; exact List.mem_cons_of_mem _ h)

theorem loadCode_fresh_loadedLines (t : Str) : LoadedLines (loadCode fresh t).lines := by
  intro l hl
  rw [loadCode_eq] at hl
  simp only [fresh, List.nil_append, List.mem_filter, Bool.not_eq_true'] at hl
  exact ⟨getLines_no_newline t l hl.1, hl.2⟩

theorem roundTrips_of_loadedLines (o : CppOptimizer) (h : LoadedLines o.lines) :
    RoundTrips o := by
  have hl : (loadCode fresh (getOptimizedCode o)).lines = o.lines := by
    rw [loadCode_eq]
    simp only [fresh, List.nil_append, getOptimizedCode]
    rw [getLines_text _ (fun l hl => (h l hl).1)]
    apply List.filter_eq_self.mpr
    intro l hl
    simp [(h l hl).2]
  have hcongr : ∀ a b : CppOptimizer, a.lines = b.lines →
      getOptimizedCode a = getOptimizedCode b := fun a b hab => by
    unfold getOptimizedCode
    rw [hab]
  exact ⟨hl, hcongr _ _ hl⟩

theorem text_eq_intercalate (ls : List Str) (h : ls ≠ []) :
    (ls.map (fun line => line ++ ['\n'])).flatten = ['\n'].intercalate ls ++ ['\n'] := by
  induction ls with
  | nil => exact absurd rfl h
  | cons l ls ih =>
    cases ls with
    | nil => simp [List.intercalate]
    | cons l2 ls =>
      have := ih (by simp)
      simp only [List.map_cons, List.flatten_cons] at this ⊢
      rw [this]
      simp [List.intercalate, List.intersperse]

theorem analyze_lines (o : CppOptimizer) :
    ∃ o2, analyze o = some o2 ∧ o2.lines = o.lines := by
  obtain ⟨o2, he, hpost⟩ := findUsedFunctions_spec (analyzeScan o).1 mainName
  exact ⟨o2, he, by rw [hpost.ext.lines]; exact scan_lines _ _⟩

theorem loadedLines_of_subset {ls ls' : List Str} (h : LoadedLines ls)
    (hsub : ∀ l ∈ ls', l ∈ ls) : LoadedLines ls' :=
  fun l hl => h l (hsub l hl)

/-! ## The claims, continued -/

/-- C11, the statement of the claim refuted. For the text `int main(){`,
`return 0;`, `}` (in the strings below the braces are written `\x7b` and
`\x7d`), `optimize` called after `loadCode` without `analyze` returns the
header and the closing brace only: `usedVariables` is empty, `varDefRegex`
finds the name `0` in `return 0;`, and the line is dropped, so the function
`main` is not in the output from its header through its closing brace. -/
theorem optimize_without_analyze_drops_body_line :
    (loadCode fresh "int main()\x7b\nreturn 0;\n\x7d".data).lines =
      ["int main()\x7b".data, "return 0;".data, "\x7d".data] ∧
    funcDefName (stripComments "int main()\x7b".data) = some "main".data ∧
    (optimize (loadCode fresh "int main()\x7b\nreturn 0;\n\x7d".data)).map (fun o => o.lines) =
      some ["int main()\x7b".data, "\x7d".data] := by
  decide

/-- C11, amended. For every input text, `optimize` called after `loadCode` on a
fresh optimizer, without `analyze`, returns, with `usedFunctions` empty; its
output contains the header line of every function named `main` that the loop
examines, contains no line recognized as a function definition with another
name, and contains no line of the variable-definition pattern that is not a
function header. -/
theorem optimize_without_analyze (t : Str) :
    ∃ o3, optimize (loadCode fresh t) = some o3 ∧ o3.usedFunctions = [] ∧
      (∀ (j : Nat) (l : Str), Examined (loadCode fresh t) j →
        (loadCode fresh t).lines[j]? = some l →
        funcDefName (stripComments l) = some mainName → l ∈ o3.lines) ∧
      (∀ l ∈ o3.lines, ∀ name, funcDefName (stripComments l) = some name → name = mainName) ∧
      (∀ l ∈ o3.lines, funcDefName (stripComments l) = none →
        varDefName (stripComments l) = none) := by
  have hu : (loadCode fresh t).usedFunctions = [] := loadCode_fresh_usedFunctions t
  have hk : (loadCode fresh t).keepFunctions = [mainName] := by rw [loadCode_eq]; rfl
  have hv : (loadCode fresh t).usedVariables = [] := by rw [loadCode_eq]; rfl
  obtain ⟨o3, he, _, hem, hex, hu3, _⟩ := optimize_spec (loadCode fresh t)
  refine ⟨o3, he, by rw [hu3, hu], ?_, ?_, ?_⟩
  · intro j l hj hl hf
    apply hex j l hj hl
    simp [emitted, hf, hk]
  · intro l hl name hname
    have h := (hem l hl).2
    simpa [emitted, hname, hu, hk] using h
  · intro l hl hf
    have h := (hem l hl).2
    rcases Option.eq_none_or_eq_some (varDefName (stripComments l)) with hn | ⟨v, hn⟩
    · exact hn
    · simp [emitted, hf, hn, hv] at h

/-- C12, the statement of the claim refuted. For the text `int x;` the loaded
line sequence joined with newlines is `int x;`, and `getOptimizedCode` returns
`int x;` followed by a newline. -/
theorem getOptimizedCode_ends_with_newline :
    (loadCode fresh "int x;".data).lines = ["int x;".data] ∧
    ['\n'].intercalate (loadCode fresh "int x;".data).lines = "int x;".data ∧
    getOptimizedCode (loadCode fresh "int x;".data) = "int x;\n".data := by
  decide

/-- C12, amended. After `loadCode` and before `optimize`, with or without an
intervening `analyze`, `getOptimizedCode` returns the loaded line sequence, in
order, each line followed by a newline: the lines joined with newlines and one
more newline at the end when there is a line, the empty text when there is
none; `analyze` returns from every state and leaves the line sequence
unchanged. -/
theorem getOptimizedCode_before_optimize (t : Str) :
    ((loadCode fresh t).lines ≠ [] →
      getOptimizedCode (loadCode fresh t) =
        ['\n'].intercalate (loadCode fresh t).lines ++ ['\n']) ∧
    ((loadCode fresh t).lines = [] → getOptimizedCode (loadCode fresh t) = []) ∧
    (∃ o2, analyze (loadCode fresh t) = some o2 ∧ o2.lines = (loadCode fresh t).lines ∧
      getOptimizedCode o2 = getOptimizedCode (loadCode fresh t)) ∧
    ∀ o : CppOptimizer, ∃ o2, analyze o = some o2 ∧ o2.lines = o.lines := by
  refine ⟨fun h => text_eq_intercalate _ h, ?_, ?_, analyze_lines⟩
  · intro h
    simp [getOptimizedCode, h]
  · obtain ⟨o2, he, hl⟩ := analyze_lines (loadCode fresh t)
    refine ⟨o2, he, hl, ?_⟩
    unfold getOptimizedCode
    rw [hl]

/-- C17. From every state `optimize` returns, and its output is the sequence of
the lines at the indices its loop examines that `emitted` accepts, in order;
for a line that is not recognized as a function header, `emitted` refuses the
line if and only if `varDefRegex` is found in it with a name that is not in
`usedVariables`, so a line matching neither pattern is always emitted. -/
theorem optimize_line_rule (o : CppOptimizer) :
    ∃ o', optimize o = some o' ∧
      o'.lines = (examinedIndices o).filterMap (keptLine o) ∧
      (∀ j, j ∈ examinedIndices o ↔ Examined o j ∧ j < o.lines.length) ∧
      ∀ line, funcDefName (stripComments line) = none →
        (emitted o line = false ↔
          ∃ v, varDefName (stripComments line) = some v ∧ v ∉ o.usedVariables) ∧
        (varDefName (stripComments line) = none → emitted o line = true) := by
  obtain ⟨o', he, hout, _⟩ := optimize_output o
  refine ⟨o', he, hout, mem_examinedIndices o, ?_⟩
  intro line hf
  rcases Option.eq_none_or_eq_some (varDefName (stripComments line)) with hn | ⟨v, hn⟩
  · simp [emitted, hf, hn]
  · simp [emitted, hf, hn]

/-- C20. For every text, the optimizer after `loadCode` on a fresh optimizer,
after a following `analyze`, and after a following `optimize` (with or without
`analyze` before it) round-trips: loading the text of `getOptimizedCode` into
a fresh optimizer gives the same line sequence, and `getOptimizedCode` of the
reloaded optimizer returns the same text. -/
theorem text_round_trip (t : Str) :
    RoundTrips (loadCode fresh t) ∧
    (∃ o2 o3, analyze (loadCode fresh t) = some o2 ∧ optimize o2 = some o3 ∧
      RoundTrips o2 ∧ RoundTrips o3) ∧
    ∃ o3, optimize (loadCode fresh t) = some o3 ∧ RoundTrips o3 := by
  have h1 := loadCode_fresh_loadedLines t
  obtain ⟨o2, he2, hl2⟩ := analyze_lines (loadCode fresh t)
  obtain ⟨o3, he3, _, hem3, _⟩ := optimize_spec o2
  obtain ⟨o3', he3', _, hem3', _⟩ := optimize_spec (loadCode fresh t)
  have h2 : LoadedLines o2.lines := by rw [hl2]; exact h1
  refine ⟨roundTrips_of_loadedLines _ h1, ⟨o2, o3, he2, he3, roundTrips_of_loadedLines _ h2,
    roundTrips_of_loadedLines _ (loadedLines_of_subset h2 (fun l hl => (hem3 l hl).1))⟩,
    ⟨o3', he3', roundTrips_of_loadedLines _
      (loadedLines_of_subset h1 (fun l hl => (hem3' l hl).1))⟩⟩

/-! ## Lemmas: `skipFunction` -/

theorem skipWhile_spec (rest : List Str) :
    ∀ (bc : Int) (i : Nat), ∃ m, m ≤ rest.length ∧ skipWhile rest bc i = i + m ∧
      (∀ m', m' < m → 0 < (rest.take m').foldl braceStep bc) ∧
      (m < rest.length → (rest.take m).foldl braceStep bc ≤ 0) := by
  induction rest with
  | nil =>
    intro bc i
    exact ⟨0, Nat.le_refl _, rfl, fun m' h => by omega, fun h => by simp at h⟩
  | cons l rest ih =>
    intro bc i
    by_cases hbc : bc > 0
    · obtain ⟨m, hm, he, hpos, hstop⟩ := ih (braceStep bc l) (i + 1)
      refine ⟨m + 1, by simp; omega, ?_, ?_, ?_⟩
      · have : skipWhile (l :: rest) bc i = skipWhile rest (braceStep bc l) (i + 1) := by
          simp only [skipWhile, hbc, if_true, braceStep]
        rw [this, he]; omega
      · intro m' hm'
        cases m' with
        | zero => simpa using hbc
        | succ m' =>
          simp only [List.take_succ_cons, List.foldl_cons]
          exact hpos m' (by omega)
      · intro hlt
        simp only [List.take_succ_cons, List.foldl_cons]
        exact hstop (by simpa using hlt)
    · refine ⟨0, Nat.zero_le _, ?_, fun m' h => by omega, ?_⟩
      · simp only [skipWhile, hbc, if_false]; rfl
      · intro _
        simpa using hbc

theorem droppedHeader_not_emitted (o : CppOptimizer) (line : Str)
    (h : droppedHeader o line = true) : emitted o line = false := by
  unfold droppedHeader at h
  unfold emitted
  rcases Option.eq_none_or_eq_some (funcDefName (stripComments line)) with hf | ⟨f, hf⟩
  · simp [hf] at h
  · simp only [hf] at h ⊢
    simpa using h

theorem optimizeLoop_past_end (o : CppOptimizer) (fuel i : Nat) (a : OptState)
    (h : o.lines.length ≤ i) : optimizeLoop o fuel i a = some a := by
  cases fuel with
  | zero => simp [optimizeLoop, Nat.not_lt.mpr h]
  | succ fuel =>
    rw [optimizeLoop_succ, List.getElem?_eq_none h]

theorem iterate_nextIndex_strictMono (o : CppOptimizer) :
    StrictMono (fun m => (nextIndex o)^[m] 0) := by
  apply strictMono_nat_of_lt_succ
  intro m
  simp only [Function.iterate_succ_apply']
  exact nextIndex_gt o _

theorem not_examined_between (o : CppOptimizer) (h j : Nat) (hex : Examined o h)
    (h1 : h < j) (h2 : j < nextIndex o h) : ¬ Examined o j := by
  rintro ⟨m, hm⟩
  obtain ⟨m0, hm0⟩ := hex
  have hmono := iterate_nextIndex_strictMono o
  rcases Nat.lt_or_ge m0 m with hlt | hge
  · have : (nextIndex o)^[m0 + 1] 0 ≤ (nextIndex o)^[m] 0 := hmono.monotone hlt
    rw [Function.iterate_succ_apply', hm0, hm] at this
    omega
  · have : (nextIndex o)^[m] 0 ≤ (nextIndex o)^[m0] 0 := hmono.monotone hge
    rw [hm0, hm] at this
    omega

theorem countChar_le_length (c : Char) (l : Str) : countChar c l ≤ l.length :=
  List.count_le_length c l

theorem foldl_braceStep_exact (ls : List Str) :
    ∀ bc : Int, -2147483648 + (totalLength ls : Int) ≤ bc →
      bc + (totalLength ls : Int) < 2147483648 →
      ls.foldl braceStep bc = bc + rawBraceTotal ls := by
  induction ls with
  | nil => intro bc _ _; simp [rawBraceTotal]
  | cons l ls ih =>
    intro bc hlo hhi
    have ha := countChar_le_length '{' l
    have hb := countChar_le_length '}' l
    have hlen : (totalLength (l :: ls) : Int) = (l.length : Int) + (totalLength ls : Int) := by
      simp [totalLength]
    rw [hlen] at hlo hhi
    have hstep : braceStep bc l = bc + (countChar '{' l : Int) - (countChar '}' l : Int) := by
      unfold braceStep wrap32
      omega
    have htot : rawBraceTotal (l :: ls) =
        (countChar '{' l : Int) - (countChar '}' l : Int) + rawBraceTotal ls := by
      simp [rawBraceTotal]
    rw [List.foldl_cons, hstep, ih _ (by omega) (by omega), htot]
    omega

theorem totalLength_sublist {ls ls' : List Str} (h : ls'.Sublist ls) :
    totalLength ls' ≤ totalLength ls := by
  unfold totalLength
  exact List.Sublist.sum_le_sum (h.map _) (fun a _ => Nat.zero_le a)

theorem skipBalance_exact (lines : List Str) (h j : Nat)
    (hsize : totalLength lines + 1 < 2147483648) :
    skipBalance lines h j = 1 + rawBraceTotal ((lines.drop (h + 1)).take (j - h)) := by
  have hsub : ((lines.drop (h + 1)).take (j - h)).Sublist lines :=
    (List.take_sublist _ _).trans (List.drop_sublist _ _)
  have hle := totalLength_sublist hsub
  unfold skipBalance
  exact foldl_braceStep_exact _ 1 (by omega) (by omega)

theorem nextIndex_dropped (o : CppOptimizer) (h : Nat) (line : Str)
    (hline : o.lines[h]? = some line) (hdrop : droppedHeader o line = true) :
    nextIndex o h = skipFunction o.lines h + 1 := by
  simp [nextIndex, hline, hdrop]

theorem skipFunction_cases (lines : List Str) (h : Nat) (hn : h < lines.length) :
    (∃ k, h < k ∧ k < lines.length ∧ skipBalance lines h k ≤ 0 ∧
        (∀ j, h < j → j < k → 0 < skipBalance lines h j) ∧
        (k + 1 < lines.length → skipFunction lines h = k) ∧
        (k + 1 = lines.length → skipFunction lines h = lines.length)) ∨
      ((∀ j, h < j → j < lines.length → 0 < skipBalance lines h j) ∧
        skipFunction lines h = lines.length) := by
  obtain ⟨m, hm, he, hpos, hstop⟩ := skipWhile_spec (lines.drop (h + 1)) 1 (h + 1)
  rw [List.length_drop] at hm hstop
  have hbal : ∀ j, h < j → skipBalance lines h j =
      ((lines.drop (h + 1)).take (j - h)).foldl braceStep 1 := fun j _ => rfl
  have hsf : skipFunction lines h =
      if h + 1 + m < lines.length then h + 1 + m - 1 else h + 1 + m := by
    simp only [skipFunction, he]
  by_cases hlt : m < lines.length - (h + 1)
  · have hle := hstop hlt
    have hm1 : 1 ≤ m := by
      rcases Nat.eq_zero_or_pos m with h0 | h0
      · subst h0
        simp at hle
      · exact h0
    left
    refine ⟨h + m, by omega, by omega, ?_, ?_, ?_, ?_⟩
    · rw [hbal _ (by omega)]
      have : h + m - h = m := by omega
      rw [this]; exact hle
    · intro j hj hjk
      rw [hbal j hj]
      exact hpos (j - h) (by omega)
    · intro _
      rw [hsf, if_pos (by omega)]
      omega
    · intro hk; omega
  · have hmeq : m = lines.length - (h + 1) := by omega
    have hsf' : skipFunction lines h = lines.length := by
      rw [hsf, if_neg (by omega)]
      omega
    by_cases hb : 1 ≤ m ∧ ((lines.drop (h + 1)).take m).foldl braceStep 1 ≤ 0
    · left
      refine ⟨h + m, by omega, by omega, ?_, ?_, ?_, ?_⟩
      · rw [hbal _ (by omega)]
        have : h + m - h = m := by omega
        rw [this]; exact hb.2
      · intro j hj hjk
        rw [hbal j hj]
        exact hpos (j - h) (by omega)
      · intro hk; omega
      · intro _; exact hsf'
    · right
      refine ⟨?_, hsf'⟩
      intro j hj hjn
      rw [hbal j hj]
      by_cases hjm : j - h < m
      · exact hpos (j - h) hjm
      · have hjeq : j - h = m := by omega
        rw [hjeq]
        by_contra hc
        exact hb ⟨by omega, by omega⟩

/-- C16. When the loop of `optimize` examines, at index `h`, a line recognized
as the header of a function that is neither live nor an entry point, the
iteration emits nothing and the loop goes on at the index `nextIndex` gives.
Either there is a first index `k` after `h` at which the balance of
`skipFunction` (1, plus each line's count of `{` minus its count of `}` over
the lines `h+1` to `k`) is no longer positive, and then the line at `k+1` is
the next one examined when there is one, or the balance stays positive to
the end of the input; no index after `h` and before the next examined one is
examined; when the next index is past the last line the loop returns. The
balance is an `int`; it is the exact sum whenever the lines hold fewer than
`2^31 - 1` characters in all. -/
theorem skipFunction_range (o : CppOptimizer) (h : Nat) (line : Str)
    (hline : o.lines[h]? = some line) (hdrop : droppedHeader o line = true)
    (hex : Examined o h) :
    (∀ (fuel : Nat) (a : OptState),
      optimizeLoop o (fuel + 1) h a = optimizeLoop o fuel (nextIndex o h) (optStep o a line) ∧
        (optStep o a line).optimizedLines = a.optimizedLines) ∧
    ((∃ k, h < k ∧ k < o.lines.length ∧ skipBalance o.lines h k ≤ 0 ∧
        (∀ j, h < j → j < k → 0 < skipBalance o.lines h j) ∧
        (k + 1 < o.lines.length → nextIndex o h = k + 1) ∧
        (k + 1 = o.lines.length → nextIndex o h = o.lines.length + 1)) ∨
      ((∀ j, h < j → j < o.lines.length → 0 < skipBalance o.lines h j) ∧
        nextIndex o h = o.lines.length + 1)) ∧
    (∀ j, h < j → j < nextIndex o h → ¬ Examined o j) ∧
    (o.lines.length ≤ nextIndex o h →
      ∀ (fuel : Nat) (a : OptState), optimizeLoop o fuel (nextIndex o h) a = some a) ∧
    (totalLength o.lines + 1 < 2147483648 →
      ∀ j, skipBalance o.lines h j =
        1 + rawBraceTotal ((o.lines.drop (h + 1)).take (j - h))) := by
  have hn : h < o.lines.length := (List.getElem?_eq_some_iff.mp hline).1
  have hnext := nextIndex_dropped o h line hline hdrop
  refine ⟨?_, ?_, ?_, ?_, fun hsize j => skipBalance_exact o.lines h j hsize⟩
  · intro fuel a
    refine ⟨?_, ?_⟩
    · rw [optimizeLoop_succ, hline]
    · rw [optStep_lines, droppedHeader_not_emitted o line hdrop]
      simp
  · rcases skipFunction_cases o.lines h hn with ⟨k, h1, h2, h3, h4, h5, h6⟩ | ⟨h1, h2⟩
    · left
      refine ⟨k, h1, h2, h3, h4, ?_, ?_⟩
      · intro hk; rw [hnext, h5 hk]
      · intro hk; rw [hnext, h6 hk]
    · right
      exact ⟨h1, by rw [hnext, h2]⟩
  · intro j h1 h2
    exact not_examined_between o h j hex h1 h2
  · intro hle fuel a
    exact optimizeLoop_past_end o fuel _ a hle

/-- C16 on an example: in `int f(){`, `int a = 1;`, `}`, `int main(){`, `}`
loaded without `analyze`, the header at index 0 is removed, the balance first
reaches 0 at index 2, and index 3 is examined next. -/
theorem skipFunction_range_witness :
    skipExample.lines[0]? = some "int f()\x7b".data ∧
    droppedHeader skipExample "int f()\x7b".data = true ∧
    Examined skipExample 0 ∧
    skipBalance skipExample.lines 0 1 = 1 ∧ skipBalance skipExample.lines 0 2 = 0 ∧
    nextIndex skipExample 0 = 3 ∧
    ((∀ (fuel : Nat) (a : OptState),
      optimizeLoop skipExample (fuel + 1) 0 a =
          optimizeLoop skipExample fuel (nextIndex skipExample 0)
            (optStep skipExample a "int f()\x7b".data) ∧
        (optStep skipExample a "int f()\x7b".data).optimizedLines = a.optimizedLines) ∧
    ((∃ k, 0 < k ∧ k < skipExample.lines.length ∧ skipBalance skipExample.lines 0 k ≤ 0 ∧
        (∀ j, 0 < j → j < k → 0 < skipBalance skipExample.lines 0 j) ∧
        (k + 1 < skipExample.lines.length → nextIndex skipExample 0 = k + 1) ∧
        (k + 1 = skipExample.lines.length →
          nextIndex skipExample 0 = skipExample.lines.length + 1)) ∨
      ((∀ j, 0 < j → j < skipExample.lines.length → 0 < skipBalance skipExample.lines 0 j) ∧
        nextIndex skipExample 0 = skipExample.lines.length + 1)) ∧
    (∀ j, 0 < j → j < nextIndex skipExample 0 → ¬ Examined skipExample j) ∧
    (skipExample.lines.length ≤ nextIndex skipExample 0 →
      ∀ (fuel : Nat) (a : OptState),
        optimizeLoop skipExample fuel (nextIndex skipExample 0) a = some a) ∧
    (totalLength skipExample.lines + 1 < 2147483648 →
      ∀ j, skipBalance skipExample.lines 0 j =
        1 + rawBraceTotal ((skipExample.lines.drop (0 + 1)).take (j - 0)))) :=
  ⟨by decide, by decide, ⟨0, rfl⟩, by decide, by decide, by decide,
    skipFunction_range skipExample 0 "int f()\x7b".data (by decide) (by decide) ⟨0, rfl⟩⟩

/-! ## Lemmas: the scope depth -/

theorem addBraces_eq (level : Int) (a b : Nat) :
    addBraces level a b = wrap32 (level + (a : Int) - (b : Int)) := by
  unfold addBraces wrap32
  omega

theorem wrap32_add_wrap32 (x y : Int) : wrap32 (wrap32 x + y) = wrap32 (x + y) := by
  unfold wrap32
  omega

theorem wrap32_wrap32 (x : Int) : wrap32 (wrap32 x) = wrap32 x := by
  unfold wrap32
  omega

theorem wrap32_of_range (x : Int) (h1 : -2147483648 ≤ x) (h2 : x < 2147483648) :
    wrap32 x = x := by
  unfold wrap32
  omega

theorem braceTotal_cons (l : Str) (ls : List Str) :
    braceTotal (l :: ls) =
      (countChar '{' (stripComments l) : Int) - (countChar '}' (stripComments l) : Int) +
        braceTotal ls := by
  simp [braceTotal]

theorem scan_currentBraceLevel (ls : List Str) :
    ∀ s : CppOptimizer × Str, wrap32 s.1.currentBraceLevel = s.1.currentBraceLevel →
      (ls.foldl analyzeLine s).1.currentBraceLevel =
        wrap32 (s.1.currentBraceLevel + braceTotal ls) := by
  induction ls with
  | nil =>
    intro s h
    simp only [List.foldl_nil, braceTotal, List.map_nil, List.sum_nil, add_zero]
    exact h.symm
  | cons l ls ih =>
    intro s _
    rw [List.foldl_cons, ih]
    · rw [analyzeLine_currentBraceLevel, addBraces_eq, wrap32_add_wrap32, braceTotal_cons]
      congr 1
      omega
    · rw [analyzeLine_currentBraceLevel, addBraces_eq, wrap32_wrap32]

theorem scan_inGlobalScope (ls : List Str) :
    ∀ s : CppOptimizer × Str, s.1.inGlobalScope = (s.1.currentBraceLevel == 0) →
      (ls.foldl analyzeLine s).1.inGlobalScope =
        ((ls.foldl analyzeLine s).1.currentBraceLevel == 0) := by
  induction ls with
  | nil => intro s h; exact h
  | cons l ls ih =>
    intro s _
    rw [List.foldl_cons]
    apply ih
    rw [analyzeLine_inGlobalScope, analyzeLine_currentBraceLevel]

theorem optimizeLoop_congr (o o' : CppOptimizer) (h1 : o'.lines = o.lines)
    (h2 : o'.usedFunctions = o.usedFunctions) (h3 : o'.keepFunctions = o.keepFunctions)
    (h4 : o'.usedVariables = o.usedVariables) :
    ∀ (fuel i : Nat) (a : OptState), optimizeLoop o' fuel i a = optimizeLoop o fuel i a := by
  intro fuel
  induction fuel with
  | zero => intro i a; simp [optimizeLoop, h1]
  | succ fuel ih =>
    intro i a
    have hnext : nextIndex o' i = nextIndex o i := by
      simp [nextIndex, droppedHeader, h1, h2, h3]
    have hstep : ∀ line, optStep o' a line = optStep o a line := by
      intro line
      simp [optStep, emitted, h2, h3, h4]
    rw [optimizeLoop_succ, optimizeLoop_succ, h1]
    cases o.lines[i]? with
    | none => rfl
    | some line => simp only [hnext, hstep, ih]

/-- C19. On a fresh optimizer, once the scan of `analyze` has read the first
`n` lines of the loaded text, `currentBraceLevel` is the total count of `{`
minus the total count of `}` over the comment-stripped text of those lines,
reduced to an `int`: it is that signed total itself, negative or not, whenever
the total fits in 32 bits; `inGlobalScope` is true exactly when
`currentBraceLevel` is 0; the same holds when `analyze` returns; for the text
`}` the level is -1. The method `optimize` starts its scan from depth 0 again:
its result does not depend on the depth and the flag it finds. -/
theorem scope_depth (t : Str) (n : Nat) :
    (((loadCode fresh t).lines.take n).foldl analyzeLine (loadCode fresh t, [])).1.currentBraceLevel
        = wrap32 (braceTotal ((loadCode fresh t).lines.take n)) ∧
    (-2147483648 ≤ braceTotal ((loadCode fresh t).lines.take n) →
      braceTotal ((loadCode fresh t).lines.take n) < 2147483648 →
      (((loadCode fresh t).lines.take n).foldl analyzeLine
          (loadCode fresh t, [])).1.currentBraceLevel
        = braceTotal ((loadCode fresh t).lines.take n)) ∧
    (((loadCode fresh t).lines.take n).foldl analyzeLine (loadCode fresh t, [])).1.inGlobalScope
        = ((((loadCode fresh t).lines.take n).foldl analyzeLine
            (loadCode fresh t, [])).1.currentBraceLevel == 0) ∧
    (∃ o2, analyze (loadCode fresh t) = some o2 ∧
      o2.currentBraceLevel = wrap32 (braceTotal (loadCode fresh t).lines) ∧
      o2.inGlobalScope = (o2.currentBraceLevel == 0)) ∧
    (analyze (loadCode fresh ['}'])).map (fun o => (o.currentBraceLevel, o.inGlobalScope))
        = some (-1, false) ∧
    ∀ (o : CppOptimizer) (level : Int) (scope : Bool),
      optimize { o with currentBraceLevel := level, inGlobalScope := scope } = optimize o := by
  have h0 : (loadCode fresh t).currentBraceLevel = 0 := by rw [loadCode_eq]; rfl
  have hs : (loadCode fresh t).inGlobalScope = true := by rw [loadCode_eq]; rfl
  have hlevel : ∀ ls : List Str,
      (ls.foldl analyzeLine (loadCode fresh t, [])).1.currentBraceLevel
        = wrap32 (braceTotal ls) := by
    intro ls
    rw [scan_currentBraceLevel ls _ (by rw [h0]; rfl), h0, zero_add]
  have hscope : ∀ ls : List Str,
      (ls.foldl analyzeLine (loadCode fresh t, [])).1.inGlobalScope
        = ((ls.foldl analyzeLine (loadCode fresh t, [])).1.currentBraceLevel == 0) := by
    intro ls
    exact scan_inGlobalScope ls _ (by rw [h0, hs]; rfl)
  refine ⟨hlevel _, ?_, hscope _, ?_, by decide, ?_⟩
  · intro h1 h2
    rw [hlevel, wrap32_of_range _ h1 h2]
  · obtain ⟨o2, he, hpost⟩ := findUsedFunctions_spec (analyzeScan (loadCode fresh t)).1 mainName
    refine ⟨o2, he, ?_, ?_⟩
    · rw [hpost.ext.level]
      exact hlevel _
    · rw [hpost.ext.scope, hpost.ext.level]
      exact hscope _
  · intro o level scope
    simp only [optimize]
    rw [optimizeLoop_congr o { o with currentBraceLevel := level, inGlobalScope := scope }
      rfl rfl rfl rfl]

/-! ## Lemmas: the call lists -/

theorem visits_fold_none (fuel : Nat) (f : Str) (L : List Str) :
    L.foldl
        (fun acc calledFunc =>
          match acc with
          | none => none
          | some (o2, visits) =>
            if calledFunc ≠ f then
              match findUsedFunctionsVisits fuel o2 calledFunc with
              | none => none
              | some (o3, visits') => some (o3, visits ++ visits')
            else some (o2, visits))
        (none : Option (CppOptimizer × List Str)) = none := by
  induction L with
  | nil => rfl
  | cons g L ih => rw [List.foldl_cons]; exact ih

theorem dfs_fold_none (fuel : Nat) (f : Str) (L : List Str) :
    L.foldl
        (fun acc calledFunc =>
          match acc with
          | none => none
          | some o2 =>
            if calledFunc ≠ f then findUsedFunctionsFuel fuel o2 calledFunc
            else some o2)
        (none : Option CppOptimizer) = none := by
  induction L with
  | nil => rfl
  | cons g L ih => rw [List.foldl_cons]; exact ih

/-- Forgetting the visits gives `findUsedFunctionsFuel`. -/
theorem findUsedFunctionsVisits_fst :
    ∀ (fuel : Nat) (o : CppOptimizer) (f : Str),
      (findUsedFunctionsVisits fuel o f).map (fun r => r.1) = findUsedFunctionsFuel fuel o f := by
  intro fuel
  induction fuel with
  | zero => intro o f; rfl
  | succ fuel ih =>
    intro o f
    rw [findUsedFunctionsVisits, findUsedFunctionsFuel]
    by_cases h : f ∈ o.usedFunctions ∨ f ∉ o.definedFunctions
    · rw [if_pos h, if_pos h]; rfl
    · rw [if_neg h, if_neg h]
      have hfold : ∀ (L : List Str) (acc : CppOptimizer × List Str),
          (L.foldl
            (fun acc calledFunc =>
              match acc with
              | none => none
              | some (o2, visits) =>
                if calledFunc ≠ f then
                  match findUsedFunctionsVisits fuel o2 calledFunc with
                  | none => none
                  | some (o3, visits') => some (o3, visits ++ visits')
                else some (o2, visits))
            (some acc)).map (fun r => r.1) =
          L.foldl
            (fun acc calledFunc =>
              match acc with
              | none => none
              | some o2 =>
                if calledFunc ≠ f then findUsedFunctionsFuel fuel o2 calledFunc
                else some o2)
            (some acc.1) := by
        intro L
        induction L with
        | nil => intro acc; rfl
        | cons g L ihL =>
          intro acc
          obtain ⟨o2, vs⟩ := acc
          rw [List.foldl_cons, List.foldl_cons]
          by_cases hg : g = f
          · simp only [hg, ne_eq, not_true_eq_false, if_false]
            exact ihL (o2, vs)
          · simp only [ne_eq, hg, not_false_eq_true, if_true]
            rw [← ih o2 g]
            cases hv : findUsedFunctionsVisits fuel o2 g with
            | none =>
              simp only [Option.map_none']
              rw [visits_fold_none, dfs_fold_none]
              rfl
            | some r =>
              obtain ⟨o3, vs'⟩ := r
              simp only [Option.map_some']
              exact ihL (o3, vs ++ vs')
      exact hfold _ _

/-- The visits of a run are distinct and new. -/
theorem findUsedFunctionsVisits_once :
    ∀ (fuel : Nat) (o : CppOptimizer) (f : Str) (r : CppOptimizer × List Str),
      findUsedFunctionsVisits fuel o f = some r → VisitsOnce o r := by
  intro fuel
  induction fuel with
  | zero => intro o f r h; simp [findUsedFunctionsVisits] at h
  | succ fuel ih =>
    intro o f r h
    rw [findUsedFunctionsVisits] at h
    by_cases hg : f ∈ o.usedFunctions ∨ f ∉ o.definedFunctions
    · rw [if_pos hg] at h
      cases h
      exact ⟨List.nodup_nil, fun x hx => by simp at hx, fun x => by simp, rfl⟩
    · rw [if_neg hg] at h
      have hnu : f ∉ o.usedFunctions := fun hc => hg (Or.inl hc)
      have hdef : f ∈ o.definedFunctions := by_contra fun hc => hg (Or.inr hc)
      have hfold : ∀ (L : List Str) (acc : CppOptimizer × List Str), VisitsOnce o acc →
          L.foldl
            (fun acc calledFunc =>
              match acc with
              | none => none
              | some (o2, visits) =>
                if calledFunc ≠ f then
                  match findUsedFunctionsVisits fuel o2 calledFunc with
                  | none => none
                  | some (o3, visits') => some (o3, visits ++ visits')
                else some (o2, visits))
            (some acc) = some r → VisitsOnce o r := by
        intro L
        induction L with
        | nil =>
          intro acc hacc he
          simp only [List.foldl_nil, Option.some.injEq] at he
          rw [← he]; exact hacc
        | cons g L ihL =>
          intro acc hacc he
          obtain ⟨o2, vs⟩ := acc
          rw [List.foldl_cons] at he
          by_cases hgf : g = f
          · simp only [hgf, ne_eq, not_true_eq_false, if_false] at he
            exact ihL (o2, vs) hacc he
          · simp only [ne_eq, hgf, not_false_eq_true, if_true] at he
            cases hv : findUsedFunctionsVisits fuel o2 g with
            | none =>
              rw [hv] at he
              simp only [] at he
              rw [visits_fold_none] at he
              cases he
            | some r2 =>
              obtain ⟨o3, vs'⟩ := r2
              rw [hv] at he
              simp only [] at he
              obtain ⟨hn2, hm2, hu2, hd2⟩ := ih o2 g (o3, vs') hv
              obtain ⟨hn, hm, hu, hd⟩ := hacc
              simp only at hn2 hm2 hu2 hd2 hn hm hu hd
              apply ihL (o3, vs ++ vs') _ he
              refine ⟨?_, ?_, ?_, ?_⟩
              · show (vs ++ vs').Nodup
                rw [List.nodup_append]
                refine ⟨hn, hn2, ?_⟩
                intro x hx hx'
                exact (hm2 x hx').2 ((hu x).mpr (Or.inr hx))
              · intro x hx
                rcases List.mem_append.mp hx with hx | hx
                · exact hm x hx
                · refine ⟨by rw [← hd]; exact (hm2 x hx).1, ?_⟩
                  intro hc
                  exact (hm2 x hx).2 ((hu x).mpr (Or.inl hc))
              · intro x
                show x ∈ o3.usedFunctions ↔ x ∈ o.usedFunctions ∨ x ∈ vs ++ vs'
                rw [hu2, hu, List.mem_append, or_assoc]
              · show o3.definedFunctions = o.definedFunctions
                rw [hd2, hd]
      apply hfold _ _ _ h
      refine ⟨by simp, ?_, ?_, rfl⟩
      · intro x hx
        simp only [List.mem_singleton] at hx
        subst hx
        exact ⟨hdef, hnu⟩
      · intro x
        show x ∈ o.usedFunctions.insert f ↔ x ∈ o.usedFunctions ∨ x ∈ [f]
        rw [List.mem_insert_iff, List.mem_singleton, or_comm]

/-! ## Lemmas: comment lines -/

theorem matchAt_comment_none (prev : Option Char) (x : Char) (xs : Str) (hx : x ≠ '/') :
    matchAt commentRegex prev (x :: xs) = none := by
  simp [matchAt, commentRegex, seqs, matchRe, lit, hx]

theorem starLoop_notNewline (body : Str) (hbody : '\n' ∉ body) :
    ∀ (prev : Option Char) (c : Caps),
      ∃ q, starLoop true (matchRe (notChar '\n')) body.length ⟨prev, body⟩ c
        (fun p c => some (p, c)) = some (⟨q, []⟩, c) := by
  induction body with
  | nil => intro prev c; exact ⟨prev, rfl⟩
  | cons y ys ih =>
    intro prev c
    have hy : y ≠ '\n' := fun h => hbody (by simp [h])
    obtain ⟨q, hq⟩ := ih (fun h => hbody (List.mem_cons_of_mem _ h)) (some y) c
    refine ⟨q, ?_⟩
    have hstep : ∀ k : Cont,
        matchRe (notChar '\n') ⟨prev, y :: ys⟩ c k = k ⟨some y, ys⟩ c := by
      intro k
      simp [matchRe, notChar, hy]
    have hlt : (⟨some y, ys⟩ : Pos).rest.length < (⟨prev, y :: ys⟩ : Pos).rest.length := by
      simp
    rw [List.length_cons, starLoop_succ_eq, hstep, if_pos hlt, hq]
    rfl

theorem matchRe_comment_second (prev : Option Char) (body : Str) (R : Regex)
    (res : Pos × Caps)
    (h : matchRe R ⟨some '/', body⟩ [] (fun p c => some (p, c)) = some res) :
    matchRe (.alt (seqs [lit '/', lit '*', .star false anyChar, lit '*', lit '/'])
        (.seq (lit '/') (.seq (lit '/') R)))
      ⟨prev, '/' :: '/' :: body⟩ [] (fun p c => some (p, c)) = some res := by
  simp [matchRe, lit, seqs, h]

theorem matchAt_line_comment (prev : Option Char) (body : Str) (hbody : '\n' ∉ body) :
    matchAt commentRegex prev ('/' :: '/' :: body) = some (body.length + 1 + 1, []) := by
  obtain ⟨q, hq⟩ := starLoop_notNewline body hbody (some '/') []
  have h := matchRe_comment_second prev body (.star true (notChar '\n')) (⟨q, []⟩, []) hq
  have hdef : commentRegex =
      .alt (seqs [lit '/', lit '*', .star false anyChar, lit '*', lit '/'])
        (.seq (lit '/') (.seq (lit '/') (.star true (notChar '\n')))) := rfl
  unfold matchAt
  rw [hdef, h]
  simp

theorem regexRemoveFrom_skip (r : Regex) (s : Str) :
    ∀ (n : Nat) (prev : Option Char), s.length ≤ n → regexRemoveFrom r n prev s = [] := by
  induction s with
  | nil => intro n prev _; cases n <;> rfl
  | cons x xs ih =>
    intro n prev h
    cases n with
    | zero => simp at h
    | succ n =>
      simp only [regexRemoveFrom]
      exact ih n (some x) (by simpa using h)

theorem stripComments_comment_line (ws body : Str) (hws : ∀ c ∈ ws, c ≠ '/')
    (hbody : '\n' ∉ body) :
    ∀ prev : Option Char,
      regexRemoveFrom commentRegex 0 prev (ws ++ '/' :: '/' :: body) = ws := by
  induction ws with
  | nil =>
    intro prev
    simp only [List.nil_append, regexRemoveFrom, matchAt_line_comment prev body hbody]
    exact regexRemoveFrom_skip _ _ _ _ (by simp)
  | cons w ws ih =>
    intro prev
    rw [List.cons_append, regexRemoveFrom,
      matchAt_comment_none prev w _ (hws w (List.mem_cons_self _ _))]
    simp only []
    rw [ih (fun c hc => hws c (List.mem_cons_of_mem _ hc))]

theorem isSpace_ne_slash (c : Char) (h : isSpace c = true) : c ≠ '/' := by
  intro hc
  subst hc
  revert h
  decide

theorem isWhitespaceOrComment_comment_line (ws body : Str)
    (hws : ∀ c ∈ ws, isSpace c = true) (hbody : '\n' ∉ body) :
    isWhitespaceOrComment (ws ++ '/' :: '/' :: body) = true := by
  unfold isWhitespaceOrComment stripComments regexRemove
  rw [stripComments_comment_line ws body (fun c hc => isSpace_ne_slash c (hws c hc)) hbody]
  rw [List.all_eq_true]
  intro c hc
  simp [hws c hc]

theorem loadCode_fresh_lines_splitOn (t : Str) :
    (loadCode fresh t).lines = (t.splitOn '\n').filter (fun l => !isWhitespaceOrComment l) := by
  rw [loadCode_eq]
  show [] ++ _ = _
  rw [List.nil_append]
  rcases splitOn_getLines t with h | h
  · rw [h]
  · rw [h, List.filter_append]
    have : List.filter (fun l => !isWhitespaceOrComment l) [([] : Str)] = [] := by decide
    rw [this, List.append_nil]

theorem loadCode_fresh_congr (t t' : Str)
    (h : (loadCode fresh t').lines = (loadCode fresh t).lines) :
    loadCode fresh t' = loadCode fresh t := by
  rw [loadCode_eq, loadCode_eq] at h ⊢
  simp only [fresh, List.nil_append] at h ⊢
  rw [h]

/-- C13. On the example of the spec the pipeline is not idempotent: the first
run returns the `helper` line alone (the `main` line is lost to
`skipFunction`), and the same pipeline on that text, with a fresh optimizer,
returns the empty text, since no `main` is left to keep `helper` alive. -/
theorem reoptimize_example_not_idempotent :
    (optimizeCode fresh
        "int helper(){return 1;}\nint unused(){return 2;}\nint main(){return helper();}".data).map
      (fun r => r.2) = some "int helper(){return 1;}\n".data ∧
    (optimizeCode fresh "int helper(){return 1;}\n".data).map (fun r => r.2) = some [] := by
  decide

/-- C14. Inserting at any place in the sequence of the physical lines of an
input a line made of optional whitespace followed by a `//` comment changes
nothing: `loadCode` on a fresh optimizer gives the same optimizer, with the
same line sequence, hence `analyze` computes the same sets and the pipeline
returns the same output. -/
theorem comment_line_neutral (ls1 ls2 : List Str) (ws body : Str)
    (hlines : ∀ l ∈ ls1 ++ ls2, '\n' ∉ l)
    (hws : ∀ c ∈ ws, isSpace c = true ∧ c ≠ '\n') (hbody : '\n' ∉ body) :
    (loadCode fresh (['\n'].intercalate (ls1 ++ (ws ++ '/' :: '/' :: body) :: ls2))).lines =
      (loadCode fresh (['\n'].intercalate (ls1 ++ ls2))).lines ∧
    loadCode fresh (['\n'].intercalate (ls1 ++ (ws ++ '/' :: '/' :: body) :: ls2)) =
      loadCode fresh (['\n'].intercalate (ls1 ++ ls2)) ∧
    analyze (loadCode fresh (['\n'].intercalate (ls1 ++ (ws ++ '/' :: '/' :: body) :: ls2))) =
      analyze (loadCode fresh (['\n'].intercalate (ls1 ++ ls2))) ∧
    optimizeCode fresh (['\n'].intercalate (ls1 ++ (ws ++ '/' :: '/' :: body) :: ls2)) =
      optimizeCode fresh (['\n'].intercalate (ls1 ++ ls2)) := by
  have hc : isWhitespaceOrComment (ws ++ '/' :: '/' :: body) = true :=
    isWhitespaceOrComment_comment_line ws body (fun c h => (hws c h).1) hbody
  have hcn : '\n' ∉ ws ++ '/' :: '/' :: body := by
    intro h
    rcases List.mem_append.mp h with h | h
    · exact (hws _ h).2 rfl
    · simp only [List.mem_cons] at h
      rcases h with h | h | h
      · exact absurd h (by decide)
      · exact absurd h (by decide)
      · exact hbody h
  have hl : (loadCode fresh
        (['\n'].intercalate (ls1 ++ (ws ++ '/' :: '/' :: body) :: ls2))).lines =
      (loadCode fresh (['\n'].intercalate (ls1 ++ ls2))).lines := by
    rw [loadCode_fresh_lines_splitOn, loadCode_fresh_lines_splitOn]
    rw [List.splitOn_intercalate _ '\n' (by
      intro l hl
      rcases List.mem_append.mp hl with h | h
      · exact hlines l (List.mem_append_left _ h)
      · rcases List.mem_cons.mp h with h | h
        · rw [h]; exact hcn
        · exact hlines l (List.mem_append_right _ h)) (by simp)]
    rw [List.filter_append, List.filter_cons]
    simp only [hc, Bool.not_true, Bool.false_eq_true, if_false]
    by_cases hne : ls1 ++ ls2 = []
    · obtain ⟨h1, h2⟩ := List.append_eq_nil.mp hne
      subst h1 h2
      decide
    · rw [List.splitOn_intercalate _ '\n' hlines hne, List.filter_append]
  have he := loadCode_fresh_congr _ _ hl
  refine ⟨hl, he, by rw [he], ?_⟩
  unfold optimizeCode
  rw [he]

/-- C14 on an example: the line `  // note` inserted between `int x;` and
`int main(){return 0;}`. -/
theorem comment_line_neutral_witness :
    (∀ l ∈ ["int x;".data] ++ ["int main(){return 0;}".data], '\n' ∉ l) ∧
    (∀ c ∈ "  ".data, isSpace c = true ∧ c ≠ '\n') ∧ '\n' ∉ " note".data ∧
    ['\n'].intercalate (["int x;".data] ++ ("  ".data ++ '/' :: '/' :: " note".data) ::
        ["int main(){return 0;}".data]) = "int x;\n  // note\nint main(){return 0;}".data ∧
    ((loadCode fresh (['\n'].intercalate (["int x;".data] ++
          ("  ".data ++ '/' :: '/' :: " note".data) :: ["int main(){return 0;}".data]))).lines =
        (loadCode fresh (['\n'].intercalate
          (["int x;".data] ++ ["int main(){return 0;}".data]))).lines ∧
      loadCode fresh (['\n'].intercalate (["int x;".data] ++
          ("  ".data ++ '/' :: '/' :: " note".data) :: ["int main(){return 0;}".data])) =
        loadCode fresh (['\n'].intercalate
          (["int x;".data] ++ ["int main(){return 0;}".data])) ∧
      analyze (loadCode fresh (['\n'].intercalate (["int x;".data] ++
          ("  ".data ++ '/' :: '/' :: " note".data) :: ["int main(){return 0;}".data]))) =
        analyze (loadCode fresh (['\n'].intercalate
          (["int x;".data] ++ ["int main(){return 0;}".data]))) ∧
      optimizeCode fresh (['\n'].intercalate (["int x;".data] ++
          ("  ".data ++ '/' :: '/' :: " note".data) :: ["int main(){return 0;}".data])) =
        optimizeCode fresh (['\n'].intercalate
          (["int x;".data] ++ ["int main(){return 0;}".data]))) :=
  ⟨by decide, by decide, by decide, by decide,
    comment_line_neutral ["int x;".data] ["int main(){return 0;}".data] "  ".data " note".data
      (by decide) (by decide) (by decide)⟩

set_option maxRecDepth 100000 in
/-- C15. From every state, hence for every call graph `analyze` can build,
`findUsedFunctions` returns within the bound of its recursion depth, and the
names it visits are distinct defined functions that were not marked before:
each defined function is visited at most once, and the marked names
afterwards are the ones marked before and the visited ones. For a text whose
call graph has the self-edges `f -> f`, `g -> g`, `main -> main` and the cycle
`f -> g -> f`, the traversal from `main` visits `main`, `f`, `g` once each. -/
theorem findUsedFunctions_terminates :
    (∀ (o : CppOptimizer) (f : Str), ∃ o' visits,
      findUsedFunctions o f = some o' ∧
      findUsedFunctionsVisits (o.definedFunctions.length + 1) o f = some (o', visits) ∧
      visits.Nodup ∧
      (∀ x ∈ visits, x ∈ o.definedFunctions ∧ x ∉ o.usedFunctions) ∧
      (∀ x, x ∈ o'.usedFunctions ↔ x ∈ o.usedFunctions ∨ x ∈ visits)) ∧
    (analyze (loadCode fresh cycleExample)).map (fun o => (o.functionCalls, o.usedFunctions)) =
      some ([("f".data, ["f".data, "g".data]), ("g".data, ["g".data, "f".data]),
          ("main".data, ["main".data, "f".data])],
        ["g".data, "f".data, "main".data]) ∧
    (findUsedFunctionsVisits ((analyzeScan (loadCode fresh cycleExample)).1.definedFunctions.length + 1)
        (analyzeScan (loadCode fresh cycleExample)).1 mainName).map (fun r => r.2) =
      some ["main".data, "f".data, "g".data] := by
  refine ⟨?_, by decide, by decide⟩
  intro o f
  obtain ⟨o', he, _⟩ := findUsedFunctions_spec o f
  have hfst := findUsedFunctionsVisits_fst (o.definedFunctions.length + 1) o f
  have he' : findUsedFunctionsFuel (o.definedFunctions.length + 1) o f = some o' := he
  rw [he'] at hfst
  cases hv : findUsedFunctionsVisits (o.definedFunctions.length + 1) o f with
  | none => rw [hv] at hfst; cases hfst
  | some r =>
    obtain ⟨o2, vs⟩ := r
    rw [hv] at hfst
    simp only [Option.map_some', Option.some.injEq] at hfst
    subst hfst
    obtain ⟨h1, h2, h3, _⟩ := findUsedFunctionsVisits_once _ o f (o2, vs) hv
    exact ⟨o2, vs, he, rfl, h1, h2, h3⟩

end CodeOptimizer
